import Mathlib

/-!
Verification of the floeterm terminal session server core.

This file gives a shallow embedding of the parts of the floeterm repository
that the checked properties talk about, and proves or refutes each property
against that embedding:

* `terminal-go/size.go`: terminal dimension constants, `validateTerminalSize`
  and `clampTerminalSize`;
* `terminal-go/workdir.go` / session connection sizing: `getMinimumTerminalSize`;
* `app/backend/internal/server/limits.go` and `api.go`: `validateDims`,
  `maxInputBytes`, and the resize/input handler decision logic;
* the terminal history ring buffer (`TerminalRingBuffer`);
* the replay history filter (`DefaultHistoryFilter`);
* the client-side reorder buffer (`SequenceBuffer` from
  `terminal-web/src/internal/SequenceBuffer.ts`);
* the manager's created-before-closed event barrier (`Manager.CreateSession`
  and `Session.waitProcessExit`).

Bytes are modelled as natural numbers (the byte value), Go `int64`/`int` and
JS `number` as `Int`, byte slices and strings as `List Nat`, timestamps as
`Int` milliseconds passed explicitly where the source calls a clock.
-/

namespace Floeterm

/-! ## Terminal size policy (`terminal-go/size.go`, `terminal-go/workdir.go`) -/

namespace TerminalGo

/-- `minTerminalCols` from `size.go`. -/
def minTerminalCols : Int := 20

/-- `minTerminalRows` from `size.go`. -/
def minTerminalRows : Int := 5

/-- `maxTerminalCols` from `size.go`. -/
def maxTerminalCols : Int := 500

/-- `maxTerminalRows` from `size.go`. -/
def maxTerminalRows : Int := 200

/-- `validateTerminalSize` from `size.go`: `true` when no error is returned. -/
def validateTerminalSize (cols rows : Int) : Bool :=
  if cols < minTerminalCols || cols > maxTerminalCols then false
  else if rows < minTerminalRows || rows > maxTerminalRows then false
  else true

/-- `clampTerminalSize` from `size.go`. -/
def clampTerminalSize (cols rows : Int) : Int × Int :=
  let cols := if cols < minTerminalCols then minTerminalCols else cols
  let rows := if rows < minTerminalRows then minTerminalRows else rows
  let cols := if cols > maxTerminalCols then maxTerminalCols else cols
  let rows := if rows > maxTerminalRows then maxTerminalRows else rows
  (cols, rows)

/-- `Session.getMinimumTerminalSize`: the session's connection map is modelled
as the list of each registered connection's `(Cols, Rows)` pair (map iteration
order does not affect a minimum). Mirrors the body: default `(80, 24)` for no
connections, elementwise minimum seeded with `999999`, then only the *lower*
bounds `20` and `5` are enforced. -/
def getMinimumTerminalSize (connections : List (Int × Int)) : Int × Int :=
  if connections = [] then (80, 24)
  else
    let minCols : Int := connections.foldl (fun acc c => if c.1 < acc then c.1 else acc) 999999
    let minRows : Int := connections.foldl (fun acc c => if c.2 < acc then c.2 else acc) 999999
    let minCols := if minCols < 20 then 20 else minCols
    let minRows := if minRows < 5 then 5 else minRows
    (minCols, minRows)

end TerminalGo

/-! ## Backend HTTP limits and handler decisions
(`app/backend/internal/server/limits.go`, `api.go`) -/

namespace Server

/-- `maxInputBytes` from `limits.go` (64 KiB). -/
def maxInputBytes : Int := 64 * 1024

/-- `minCols`/`minRows`/`maxCols`/`maxRows` from `limits.go`. -/
def minCols : Int := 20
def minRows : Int := 5
def maxCols : Int := 500
def maxRows : Int := 200

/-- `validateDims` from `limits.go`. -/
def validateDims (cols rows : Int) : Bool :=
  if cols < minCols || cols > maxCols then false
  else if rows < minRows || rows > maxRows then false
  else true

/-- ASCII whitespace test used by Go's `strings.TrimSpace` for the byte range
that occurs in connection ids (space, tab, newline, carriage return). -/
def isWS (c : Char) : Bool :=
  c.toNat == 32 || c.toNat == 9 || c.toNat == 10 || c.toNat == 13

/-- Model of Go's `strings.TrimSpace`. -/
def goTrimSpace (s : String) : String :=
  ⟨((s.data.dropWhile isWS).reverse.dropWhile isWS).reverse⟩

/-- Outcome of the `resize` action of `handleSessionByID` in `api.go`
(success path of the underlying PTY calls; a kernel resize failure would
turn the last two outcomes into HTTP 500). -/
inductive ResizeOutcome where
  | badRequest
  | notFound
  | updatedConnectionSize (connId : String) (cols rows : Int)
  | resizedPTY (cols rows : Int)
deriving DecidableEq, Repr

/-- The `resize` action of `handleSessionByID` (`api.go`): after decoding the
body it only rejects non-positive dimensions, looks the session up, and then
either updates the named connection's size or resizes the PTY directly. -/
def handleResize (connId : String) (cols rows : Int) (sessionExists : Bool) :
    ResizeOutcome :=
  if cols ≤ 0 || rows ≤ 0 then .badRequest
  else if !sessionExists then .notFound
  else if goTrimSpace connId ≠ "" then .updatedConnectionSize connId cols rows
  else .resizedPTY cols rows

/-- Outcome of the `input` action of `handleSessionByID` in `api.go`
(success path of the PTY write; a write failure would be HTTP 500). -/
inductive InputOutcome where
  | badRequest
  | notFound
  | wrote (data : List Nat) (source : String)
deriving DecidableEq, Repr

/-- The `input` action of `handleSessionByID` (`api.go`): after decoding the
body it looks the session up and forwards the whole input to
`WriteDataWithSource`; no length check is applied anywhere on this path. -/
def handleInput (connId : String) (input : List Nat) (sessionExists : Bool) :
    InputOutcome :=
  if !sessionExists then .notFound
  else .wrote input connId

end Server

/-! ## History ring buffer (`TerminalRingBuffer`) -/

/-- `TerminalDataChunk` from `terminal-go/types.go`. -/
structure TerminalDataChunk where
  sequence : Int
  data : List Nat
  timestamp : Int
  size : Int
deriving DecidableEq, Repr

instance : Inhabited TerminalDataChunk := ⟨⟨0, [], 0, 0⟩⟩

/-- `TerminalRingBuffer`: a slot holding the Go zero-value chunk (whose `Data`
is nil, as produced by `make`/`Clear`) is modelled as `none`; a written chunk
as `some`. The mutex is dropped; operations are sequential state transformers.
Timestamps are passed in explicitly where the Go code calls `time.Now`. -/
structure TerminalRingBuffer where
  chunks : List (Option TerminalDataChunk)
  head : Nat
  tail : Nat
  size : Nat
  full : Bool
  totalBytes : Int
  writeCount : Int
  readCount : Int
  nextSequence : Int
deriving Repr

/-- `NewTerminalRingBuffer` (capacities `≤ 0` fall back to 2048). -/
def NewTerminalRingBuffer (size : Int) : TerminalRingBuffer :=
  let n : Nat := if size ≤ 0 then 2048 else size.toNat
  { chunks := List.replicate n none, head := 0, tail := 0, size := n, full := false,
    totalBytes := 0, writeCount := 0, readCount := 0, nextSequence := 1 }

/-- The `Size` field of a slot (`0` for the zero-value chunk). -/
def chunkSize? : Option TerminalDataChunk → Int
  | some c => c.size
  | none => 0

/-- The `Timestamp` field of a slot (`0` for the zero-value chunk). -/
def chunkTimestamp? : Option TerminalDataChunk → Int
  | some c => c.timestamp
  | none => 0

/-- `TerminalRingBuffer.writeOwned`. -/
def writeOwned (rb : TerminalRingBuffer) (data : List Nat) (now : Int) :
    TerminalRingBuffer :=
  if data.length = 0 then rb
  else
    -- When full, the next write overwrites the oldest chunk at head:
    -- adjust byte accounting before overwriting, advance tail.
    let rb1 :=
      if rb.full then
        { rb with
          totalBytes := rb.totalBytes - chunkSize? (rb.chunks.getD rb.head none),
          tail := (rb.tail + 1) % rb.size }
      else rb
    let chunk : TerminalDataChunk :=
      { sequence := rb1.nextSequence, data := data, timestamp := now,
        size := data.length }
    { rb1 with
      chunks := rb1.chunks.set rb1.head (some chunk),
      totalBytes := rb1.totalBytes + data.length,
      writeCount := rb1.writeCount + 1,
      nextSequence := rb1.nextSequence + 1,
      head := (rb1.head + 1) % rb1.size,
      full := (rb1.head + 1) % rb1.size == rb1.tail }

/-- `TerminalRingBuffer.Write` (copies the slice, then `writeOwned`; copying
is the identity in this model). -/
def Write (rb : TerminalRingBuffer) (data : List Nat) (now : Int) :
    TerminalRingBuffer :=
  if data.length = 0 then rb else writeOwned rb data now

/-- `TerminalRingBuffer.isEmpty`. -/
def rbIsEmpty (rb : TerminalRingBuffer) : Bool :=
  !rb.full && rb.head == rb.tail

/-- `TerminalRingBuffer.getUsedChunks`. -/
def getUsedChunks (rb : TerminalRingBuffer) : Nat :=
  if rb.full then rb.size
  else if rb.head ≥ rb.tail then rb.head - rb.tail
  else rb.size - rb.tail + rb.head

/-- The slot read by the retrieval loops at logical offset `i` from the tail. -/
def slotAt (rb : TerminalRingBuffer) (i : Nat) : Option TerminalDataChunk :=
  rb.chunks.getD ((rb.tail + i) % rb.size) none

/-- `TerminalRingBuffer.ReadAllChunks` (the `readCount` bump only feeds
`GetStats` and does not affect the returned list; deep copies are the
identity in this model). Slots whose `Data` is nil are skipped. -/
def ReadAllChunks (rb : TerminalRingBuffer) : List TerminalDataChunk :=
  if rbIsEmpty rb then []
  else (List.range (getUsedChunks rb)).filterMap (slotAt rb)

/-- `TerminalRingBuffer.ReadAll`: same loop as `ReadAllChunks` but collecting
only the data slices. -/
def ReadAll (rb : TerminalRingBuffer) : List (List Nat) :=
  if rbIsEmpty rb then []
  else (List.range (getUsedChunks rb)).filterMap (fun i => (slotAt rb i).map (·.data))

/-- `TerminalRingBuffer.Clear`. -/
def Clear (rb : TerminalRingBuffer) : TerminalRingBuffer :=
  { rb with
    chunks := List.replicate rb.size none,
    head := 0, tail := 0, full := false,
    totalBytes := 0, nextSequence := 1 }

/-- `RingBufferStats`. -/
structure RingBufferStats where
  totalChunks : Nat
  usedChunks : Nat
  totalBytes : Int
  writeCount : Int
  readCount : Int
  memoryUsage : Int
  oldestTimestamp : Int
  newestTimestamp : Int
deriving DecidableEq, Repr

/-- `TerminalRingBuffer.estimateMemoryUsage`. -/
def estimateMemoryUsage (rb : TerminalRingBuffer) : Int :=
  (rb.size : Int) * 32 + rb.totalBytes + (rb.size : Int) * 16

/-- `TerminalRingBuffer.GetStats`. -/
def GetStats (rb : TerminalRingBuffer) : RingBufferStats :=
  let usedChunks := getUsedChunks rb
  let oldestTimestamp : Int :=
    if usedChunks > 0 then chunkTimestamp? (rb.chunks.getD rb.tail none) else 0
  let newestTimestamp : Int :=
    if usedChunks > 0 then
      chunkTimestamp? (rb.chunks.getD (if rb.head = 0 then rb.size - 1 else rb.head - 1) none)
    else 0
  { totalChunks := rb.size, usedChunks := usedChunks,
    totalBytes := rb.totalBytes, writeCount := rb.writeCount,
    readCount := rb.readCount, memoryUsage := estimateMemoryUsage rb,
    oldestTimestamp := oldestTimestamp, newestTimestamp := newestTimestamp }

/-- An externally observable mutation of the ring buffer: a (non-copying)
write at a given time, or a clear. -/
inductive RBOp where
  | write (data : List Nat) (now : Int)
  | clear
deriving DecidableEq, Repr

/-- Apply one operation. -/
def applyOp (rb : TerminalRingBuffer) : RBOp → TerminalRingBuffer
  | .write data now => writeOwned rb data now
  | .clear => Clear rb

/-- Apply a sequence of operations. -/
def applyOps (rb : TerminalRingBuffer) (ops : List RBOp) : TerminalRingBuffer :=
  ops.foldl applyOp rb

/-- Total of the `size` fields of a chunk list. -/
def sumSizes (l : List TerminalDataChunk) : Int :=
  (l.map (·.size)).sum

/-- The used-count expression of `getUsedChunks` for a non-full buffer. -/
def usedOf (h t n : Nat) : Nat :=
  if h ≥ t then h - t else n - t + h

/-- The chunk stamped by `writeOwned`. -/
def writtenChunk (rb : TerminalRingBuffer) (data : List Nat) (now : Int) :
    TerminalDataChunk :=
  { sequence := rb.nextSequence, data := data, timestamp := now,
    size := (data.length : Int) }

/-- Well-formedness of a ring buffer state: all states reachable from
`NewTerminalRingBuffer` satisfy it. -/
structure WF (rb : TerminalRingBuffer) : Prop where
  size_pos : 0 < rb.size
  chunks_len : rb.chunks.length = rb.size
  head_lt : rb.head < rb.size
  tail_lt : rb.tail < rb.size
  full_head_eq : rb.full = true → rb.head = rb.tail
  used_some : ∀ i, i < getUsedChunks rb → (slotAt rb i).isSome = true
  bytes_eq : rb.totalBytes = sumSizes (ReadAllChunks rb)

/-- The chunks a run of writes is expected to retain: consecutive sequence
numbers from `startSeq`, one chunk per payload. -/
def expectedChunks (startSeq : Int) (now : Int) :
    List (List Nat) → List TerminalDataChunk
  | [] => []
  | d :: ws =>
    { sequence := startSeq, data := d, timestamp := now,
      size := (d.length : Int) } :: expectedChunks (startSeq + 1) now ws

/-- Write a list of payloads one after the other. -/
def writeAll (rb : TerminalRingBuffer) (ws : List (List Nat)) (now : Int) :
    TerminalRingBuffer :=
  ws.foldl (fun b d => writeOwned b d now) rb

/-! ## Client-side reorder buffer
(`terminal-web/src/internal/SequenceBuffer.ts`) -/

/-- The client-side `TerminalDataChunk` (`terminal-web/src/types`): only the
fields the reorder buffer touches. JS numbers carrying sequence values are
modelled as `Int` (every pushed sequence is an integer in this model, so the
`Number.isInteger` guard of `push` is identically true). -/
structure TWChunk where
  sequence : Int
  data : List Nat
  timestampMs : Int
deriving DecidableEq, Repr

/-- `SequenceBufferConfig`. -/
structure SequenceBufferConfig where
  maxPendingChunks : Int
  maxSequenceGap : Int
  cleanupIntervalMs : Int
  forceCleanupThreshold : Int
  maxStallMs : Int
deriving DecidableEq, Repr

/-- `defaultConfig` from `SequenceBuffer.ts`. -/
def defaultConfig : SequenceBufferConfig :=
  { maxPendingChunks := 40, maxSequenceGap := 32, cleanupIntervalMs := 5000,
    forceCleanupThreshold := 60, maxStallMs := 500 }

/-- JS `Map.get` on an insertion-ordered association list. -/
def mapGet? {α : Type} (m : List (Int × α)) (k : Int) : Option α :=
  (m.find? (fun p => p.1 == k)).map (·.2)

/-- JS `Map.has`. -/
def mapHas {α : Type} (m : List (Int × α)) (k : Int) : Bool :=
  (m.find? (fun p => p.1 == k)).isSome

/-- JS `Map.set` (replaces in place, or appends a new entry). -/
def mapSet {α : Type} (m : List (Int × α)) (k : Int) (v : α) : List (Int × α) :=
  if mapHas m k then m.map (fun p => if p.1 == k then (k, v) else p)
  else m ++ [(k, v)]

/-- JS `Map.delete`. -/
def mapDelete {α : Type} (m : List (Int × α)) (k : Int) : List (Int × α) :=
  m.filter (fun p => p.1 != k)

/-- `SequenceBuffer` state: `pending` and `pendingInsertedAt` are JS `Map`s
keyed by sequence number. -/
structure SequenceBuffer where
  expectedSequence : Int
  pending : List (Int × TWChunk)
  pendingInsertedAt : List (Int × Int)
  lastCleanupMs : Int
  config : SequenceBufferConfig
deriving DecidableEq, Repr

/-- The `SequenceBuffer` constructor (`lastCleanupMs = Date.now()`). -/
def mkSequenceBuffer (config : SequenceBufferConfig) (now : Int) : SequenceBuffer :=
  { expectedSequence := 1, pending := [], pendingInsertedAt := [],
    lastCleanupMs := now, config := config }

/-- `SequenceBuffer.reset`. -/
def SequenceBuffer.reset (sb : SequenceBuffer) (startSequence : Int) (now : Int) :
    SequenceBuffer :=
  { sb with
    expectedSequence := max 1 startSequence
    pending := []
    pendingInsertedAt := []
    lastCleanupMs := now }

/-- `SequenceBuffer.cleanupIfNeeded`. -/
def cleanupIfNeeded (sb : SequenceBuffer) (now : Int) : SequenceBuffer :=
  if (sb.pending.length : Int) ≥ sb.config.forceCleanupThreshold then
    { sb with
      pending := []
      pendingInsertedAt := []
      lastCleanupMs := now }
  else if now - sb.lastCleanupMs < sb.config.cleanupIntervalMs then sb
  else
    let cutoff := sb.expectedSequence + sb.config.maxSequenceGap
    { sb with
      pending := sb.pending.filter
        (fun p => if p.1 < sb.expectedSequence ∨ p.1 > cutoff then false else true)
      pendingInsertedAt := sb.pendingInsertedAt.filter
        (fun q => if (q.1 < sb.expectedSequence ∨ q.1 > cutoff) ∧
          mapHas sb.pending q.1 then false else true)
      lastCleanupMs := now }

/-- The scan of `flushIfStalled` that finds the smallest pending sequence and
the inserted-at time recorded for it (`pendingInsertedAt.get(seq) ?? now`);
`none` is the `POSITIVE_INFINITY` sentinel, kept only while nothing was seen. -/
def minPending (sb : SequenceBuffer) (now : Int) : Option (Int × Int) :=
  sb.pending.foldl
    (fun acc p =>
      match acc with
      | none => some (p.1, (mapGet? sb.pendingInsertedAt p.1).getD now)
      | some (m, t) =>
        if p.1 < m then some (p.1, (mapGet? sb.pendingInsertedAt p.1).getD now)
        else some (m, t))
    none

/-- The `while (this.pending.has(this.expectedSequence))` drain loop shared by
`push` and `flushIfStalled`: releases the contiguous run starting at `e`,
deleting it from both maps, and returns the released chunks with the final
maps and expected sequence. -/
def drainLoop (pending : List (Int × TWChunk)) (ia : List (Int × Int)) (e : Int) :
    List TWChunk × List (Int × TWChunk) × List (Int × Int) × Int :=
  match h : mapGet? pending e with
  | some c =>
    let rest := drainLoop (mapDelete pending e) (mapDelete ia e) (e + 1)
    (c :: rest.1, rest.2)
  | none => ([], pending, ia, e)
termination_by pending.length
decreasing_by
  have hs : (pending.find? (fun p => p.1 == e)).isSome = true := by
    rcases hf : pending.find? (fun p => p.1 == e) with _ | v
    -- a `none` find contradicts the successful `mapGet?`
    · rw [mapGet?, hf] at h
      simp at h
    · rw [hf]
      rfl
  obtain ⟨v, hv⟩ := Option.isSome_iff_exists.mp hs
  have hpk := List.find?_some hv
  have hp : v ∈ pending := List.mem_of_find?_eq_some hv
  rw [mapDelete]
  apply List.length_filter_lt_length_iff_exists.mpr
  refine ⟨v, hp, ?_⟩
  simp_all

/-- `SequenceBuffer.flushIfStalled`. -/
def flushIfStalled (sb : SequenceBuffer) (now : Int) :
    List TWChunk × SequenceBuffer :=
  if sb.pending = [] then ([], sb)
  else
    match minPending sb now with
    | none => ([], sb)
    | some (minSeq, minAt) =>
      if minSeq ≤ sb.expectedSequence then ([], sb)
      else if now - minAt < sb.config.maxStallMs then ([], sb)
      else
        let dr := drainLoop sb.pending sb.pendingInsertedAt minSeq
        (dr.1,
         { sb with
           expectedSequence := dr.2.2.2
           pending := dr.2.1
           pendingInsertedAt := dr.2.2.1 })

/-- `SequenceBuffer.push`: returns the released chunks and the next state. -/
def push (sb : SequenceBuffer) (chunk : TWChunk) (now : Int) :
    List TWChunk × SequenceBuffer :=
  let sequence := chunk.sequence
  if sequence < 1 then ([chunk], sb)
  else
    let sb1 := cleanupIfNeeded sb now
    let fl := flushIfStalled sb1 now
    let flushed := fl.1
    let sb2 := fl.2
    if sequence = sb2.expectedSequence then
      let dr := drainLoop sb2.pending sb2.pendingInsertedAt (sb2.expectedSequence + 1)
      (flushed ++ chunk :: dr.1,
       { sb2 with
         expectedSequence := dr.2.2.2
         pending := dr.2.1
         pendingInsertedAt := dr.2.2.1 })
    else if (sb2.expectedSequence < sequence ∧
        sequence ≤ sb2.expectedSequence + sb2.config.maxSequenceGap) ∧
        (sb2.pending.length : Int) < sb2.config.maxPendingChunks then
      (flushed,
       { sb2 with
         pending := mapSet sb2.pending sequence chunk
         pendingInsertedAt :=
           if mapHas sb2.pendingInsertedAt sequence then sb2.pendingInsertedAt
           else mapSet sb2.pendingInsertedAt sequence now })
    else if sb2.expectedSequence < sequence then
      (flushed ++ [chunk],
       { sb2 with
         expectedSequence := sequence + 1
         pending := []
         pendingInsertedAt := [] })
    else (flushed ++ [chunk], sb2)

/-- Push a list of chunks one by one at a common time, concatenating the
released chunks. -/
def pushAll (sb : SequenceBuffer) (chunks : List TWChunk) (now : Int) :
    List TWChunk × SequenceBuffer :=
  chunks.foldl
    (fun acc c =>
      let r := push acc.2 c now
      (acc.1 ++ r.1, r.2))
    ([], sb)

/-- The sequences `1, …, n`. -/
def seqList (n : Nat) : List Int :=
  (List.range n).map (fun (i : Nat) => (i : Int) + 1)

/-- Invariant tying a `SequenceBuffer` to the set `done` of sequences pushed
so far and the list `acc` of chunks released so far, in the C5 scenario
(default configuration, reset at time `t`, every push at time `t`, pushed
chunks given by `chunkOf`). -/
structure SBInv (t : Int) (chunkOf : Int → TWChunk) (done : List Int)
    (acc : List TWChunk) (sb : SequenceBuffer) : Prop where
  cfg : sb.config = defaultConfig
  lastc : sb.lastCleanupMs = t
  ia_times : ∀ q ∈ sb.pendingInsertedAt, q.2 = t
  keys_nodup : (sb.pending.map Prod.fst).Nodup
  keys_gt : ∀ kc ∈ sb.pending, sb.expectedSequence < kc.1
  keys_done : ∀ kc ∈ sb.pending, kc.1 ∈ done
  vals : ∀ kc ∈ sb.pending, kc.2 = chunkOf kc.1
  released : ∀ k : Int, 1 ≤ k → k < sb.expectedSequence → k ∈ done
  done_split : ∀ k ∈ done, k < sb.expectedSequence ∨ mapHas sb.pending k = true
  acc_eq : ∃ r : Nat, sb.expectedSequence = 1 + (r : Int) ∧
    acc = (List.range r).map (fun (i : Nat) => chunkOf (1 + (i : Int)))

/-- Events a `TerminalEventHandler` can observe for one session
(`OnTerminalSessionCreated` / `OnTerminalSessionClosed`). -/
inductive Evt where
  | created
  | closed
deriving DecidableEq, Repr

/-- Program counter of the `CreateSession` call (`manager.go`):
`c0` before the session is registered and the PTY started, `c1` after
registration and a successful `startPTY`, `c2` after
`handler.OnTerminalSessionCreated(session)` returned, `cDone` after
`CreateSession` returned (its `defer close(createdDone)` has run). -/
inductive CPc where
  | c0
  | c1
  | c2
  | cDone
deriving DecidableEq, Repr

/-- Program counter of the exit reaper (`waitProcessExit` → `onExit`):
`r0` while the child is running, `r1` once `cmd.Wait()` returned (the
`onExit` closure is entered and blocks on `<-createdDone`), `rDone` after
`deleteSessionIfExists` finished. -/
inductive RPc where
  | r0
  | r1
  | rDone
deriving DecidableEq, Repr

/-- Shared state of the `CreateSession` / reaper interleaving for one
session: the ordered list of handler events observed so far, whether
`createdDone` is closed, whether the session is still in `m.sessions`,
and the two thread program counters. -/
structure MState where
  events : List Evt
  barrier : Bool
  registered : Bool
  cpc : CPc
  rpc : RPc
deriving DecidableEq, Repr

/-- Initial state: no events, `createdDone` open, nothing registered. -/
def initState : MState :=
  { events := [], barrier := false, registered := false, cpc := CPc.c0,
    rpc := RPc.r0 }

/-- Interleaved small-step semantics of `CreateSession` (`manager.go`) and
the exit reaper, for one session and a non-nil handler. `startOk` is the
registration of the session followed by a successful `startPTY`;
`startFail` is the error path (register, `startPTY` fails, detach, return
— the deferred `close(createdDone)` runs, no event is emitted).
`fireCreated` is the `handler.OnTerminalSessionCreated(session)` call;
`returnOk` is `CreateSession` returning, which runs the deferred
`close(createdDone)`. `childExit` is `cmd.Wait()` returning at any time;
`reapFire` is `onExit`: it may proceed only once `createdDone` is closed
(`s.barrier = true`), and `deleteSessionIfExists` emits `closed` only if
the session was still registered (`reapDetachOnly` covers a handler that
became nil at reap time, `reapNoop` an already-detached session). -/
inductive Step : MState → MState → Prop where
  | startOk (s : MState) (h : s.cpc = CPc.c0) :
      Step s { s with cpc := CPc.c1, registered := true }
  | startFail (s : MState) (h : s.cpc = CPc.c0) :
      Step s { s with cpc := CPc.cDone, barrier := true, registered := false }
  | fireCreated (s : MState) (h : s.cpc = CPc.c1) :
      Step s { s with cpc := CPc.c2, events := s.events ++ [Evt.created] }
  | returnOk (s : MState) (h : s.cpc = CPc.c2) :
      Step s { s with cpc := CPc.cDone, barrier := true }
  | childExit (s : MState) (h : s.rpc = RPc.r0) :
      Step s { s with rpc := RPc.r1 }
  | reapFire (s : MState) (h : s.rpc = RPc.r1) (hb : s.barrier = true)
      (hr : s.registered = true) :
      Step s { s with
        rpc := RPc.rDone
        events := s.events ++ [Evt.closed]
        registered := false }
  | reapDetachOnly (s : MState) (h : s.rpc = RPc.r1) (hb : s.barrier = true)
      (hr : s.registered = true) :
      Step s { s with rpc := RPc.rDone, registered := false }
  | reapNoop (s : MState) (h : s.rpc = RPc.r1) (hb : s.barrier = true)
      (hr : s.registered = false) :
      Step s { s with rpc := RPc.rDone }

/-- States reachable from `initState` by interleaving the two threads. -/
inductive Reachable : MState → Prop where
  | init : Reachable initState
  | step {s s' : MState} (hr : Reachable s) (hs : Step s s') : Reachable s'

/-- Inductive invariant of the interleaving: the event list is determined
by the creator's program counter and the registration flag, and the
barrier is closed exactly from `cDone` on. -/
def MInv (s : MState) : Prop :=
  (s.cpc = CPc.c0 → s.events = [] ∧ s.barrier = false ∧ s.registered = false) ∧
  (s.cpc = CPc.c1 → s.events = [] ∧ s.barrier = false ∧ s.registered = true) ∧
  (s.cpc = CPc.c2 →
    s.events = [Evt.created] ∧ s.barrier = false ∧ s.registered = true) ∧
  (s.cpc = CPc.cDone →
    s.barrier = true ∧
    (s.registered = true → s.events = [Evt.created]) ∧
    (s.registered = false →
      s.events = [] ∨ s.events = [Evt.created] ∨
      s.events = [Evt.created, Evt.closed]))

/-- Byte is an ASCII digit. -/
def isDigit (b : Nat) : Bool := decide (48 ≤ b ∧ b ≤ 57)

/-- Byte is an ASCII digit or a semicolon. -/
def isDigitOrSemi (b : Nat) : Bool := isDigit b || b == 59

/-- Value of an ASCII digit run (`strconv.Atoi` on a digit string). -/
def digitsVal (l : List Nat) : Nat := l.foldl (fun a b => a * 10 + (b - 48)) 0

/-- Number of bytes consumed by the OSC terminator scan shared by
`filterOSCColorSequences` and `filterTerminalQuerySequences`: advance until
just past a BEL (0x07), just past an ST (ESC `\`), or the end of data. -/
def oscTermLen : List Nat → Nat
  | [] => 0
  | 7 :: _ => 1
  | 27 :: 92 :: _ => 2
  | _ :: rest => 1 + oscTermLen rest

/-- The loop of `filterOSCColorSequences`, with the iteration count bounded
by the `fuel` argument (each iteration consumes at least one byte, so fuel
equal to the data length makes the bound inactive). On ESC `]`, optional
spaces, then a digit run: an OSC 10/11 colour *response* (code `10` or
`11` followed by `;`) is dropped through its BEL/ST terminator, provided
at least one byte follows the `;`; anything else is copied through. -/
def oscGo : Nat → List Nat → List Nat
  | 0, l => l
  | _ + 1, [] => []
  | fuel + 1, b :: rest =>
    if b = 27 ∧ 2 ≤ rest.length ∧ rest.head? = some 93 then
      let l2 := rest.drop 1
      let s := (l2.takeWhile (fun c => c == 32)).length
      let l3 := l2.drop s
      let ds := l3.takeWhile isDigit
      let d := ds.length
      if d = 0 then b :: oscGo fuel rest
      else
        let l4 := l3.drop d
        if (digitsVal ds = 10 ∨ digitsVal ds = 11) ∧ l4.head? = some 59 then
          let l5 := l4.drop 1
          if l5 = [] then b :: oscGo fuel rest
          else oscGo fuel (l5.drop (oscTermLen l5))
        else b :: oscGo fuel rest
    else b :: oscGo fuel rest

/-- `filterOSCColorSequences` (part_003). -/
def filterOSCColorSequences (data : List Nat) : List Nat :=
  oscGo data.length data

/-- The loop of `filterCSIDeviceAttributeSequences`, fuel-bounded as in
`oscGo`: ESC `[` `?`/`>` then digits and semicolons ending in `c` is
dropped; anything else is copied through. -/
def csiDAGo : Nat → List Nat → List Nat
  | 0, l => l
  | _ + 1, [] => []
  | fuel + 1, b :: rest =>
    if b = 27 ∧ 3 ≤ rest.length ∧ rest.head? = some 91 ∧
        (rest.get? 1 = some 63 ∨ rest.get? 1 = some 62) then
      let l3 := rest.drop 2
      let d := (l3.takeWhile isDigitOrSemi).length
      if (l3.drop d).head? = some 99 then csiDAGo fuel (l3.drop (d + 1))
      else b :: csiDAGo fuel rest
    else b :: csiDAGo fuel rest

/-- `filterCSIDeviceAttributeSequences` (part_003). -/
def filterCSIDeviceAttributeSequences (data : List Nat) : List Nat :=
  csiDAGo data.length data

/-- The loop of `filterCSICursorPositionReportSequences`, fuel-bounded as
in `oscGo`: ESC `[` then a nonempty run of digits and semicolons ending in
`R` is dropped; anything else is copied through. -/
def cprGo : Nat → List Nat → List Nat
  | 0, l => l
  | _ + 1, [] => []
  | fuel + 1, b :: rest =>
    if b = 27 ∧ 2 ≤ rest.length ∧ rest.head? = some 91 then
      let l2 := rest.drop 1
      let d := (l2.takeWhile isDigitOrSemi).length
      if d = 0 then b :: cprGo fuel rest
      else if (l2.drop d).head? = some 82 then cprGo fuel (l2.drop (d + 1))
      else b :: cprGo fuel rest
    else b :: cprGo fuel rest

/-- `filterCSICursorPositionReportSequences` (part_003). -/
def filterCSICursorPositionReportSequences (data : List Nat) : List Nat :=
  cprGo data.length data

/-- The loop of `filterTerminalQuerySequences` (the second, complete copy
in part_003, the one exercised by the repository tests), fuel-bounded as
in `oscGo`. After ESC `[` it drops, in the source's order: primary DA
`c`; secondary DA `>` digits `c`; DSR-6 `6n`; kitty `?` digits `u`;
DECRQM `?` digits/semicolons `$p`; focus-reporting `?1004h`/`?1004l`;
XTVERSION `>` digits `q`. After ESC `]` it drops an OSC 10/11 *query*
(`;?`) through its BEL/ST terminator. Anything else is copied through. -/
def queryGo : Nat → List Nat → List Nat
  | 0, l => l
  | _ + 1, [] => []
  | fuel + 1, b :: rest =>
    if b = 27 ∧ rest.head? = some 91 then
      let l2 := rest.drop 1
      if l2.head? = some 99 then queryGo fuel (l2.drop 1)
      else if l2.head? = some 62 ∧
          ((l2.drop 1).drop ((l2.drop 1).takeWhile isDigit).length).head? =
            some 99 then
        queryGo fuel
          ((l2.drop 1).drop (((l2.drop 1).takeWhile isDigit).length + 1))
      else if l2.head? = some 54 ∧ l2.get? 1 = some 110 then
        queryGo fuel (l2.drop 2)
      else if l2.head? = some 63 ∧
          ((l2.drop 1).drop ((l2.drop 1).takeWhile isDigit).length).head? =
            some 117 then
        queryGo fuel
          ((l2.drop 1).drop (((l2.drop 1).takeWhile isDigit).length + 1))
      else if l2.head? = some 63 ∧
          ((l2.drop 1).drop ((l2.drop 1).takeWhile isDigitOrSemi).length).head? =
            some 36 ∧
          ((l2.drop 1).drop ((l2.drop 1).takeWhile isDigitOrSemi).length).get? 1 =
            some 112 then
        queryGo fuel
          ((l2.drop 1).drop (((l2.drop 1).takeWhile isDigitOrSemi).length + 2))
      else if l2.head? = some 63 ∧ l2.get? 1 = some 49 ∧ l2.get? 2 = some 48 ∧
          l2.get? 3 = some 48 ∧ l2.get? 4 = some 52 ∧
          (l2.get? 5 = some 104 ∨ l2.get? 5 = some 108) then
        queryGo fuel (l2.drop 6)
      else if l2.head? = some 62 ∧
          ((l2.drop 1).drop ((l2.drop 1).takeWhile isDigit).length).head? =
            some 113 then
        queryGo fuel
          ((l2.drop 1).drop (((l2.drop 1).takeWhile isDigit).length + 1))
      else b :: queryGo fuel rest
    else if b = 27 ∧ rest.head? = some 93 then
      let l2 := rest.drop 1
      let s := (l2.takeWhile (fun c => c == 32)).length
      let l3 := l2.drop s
      let ds := l3.takeWhile isDigit
      let d := ds.length
      if 1 ≤ d ∧ (digitsVal ds = 10 ∨ digitsVal ds = 11) ∧
          (l3.drop d).head? = some 59 ∧ (l3.drop d).get? 1 = some 63 then
        let l5 := l3.drop (d + 2)
        queryGo fuel (l5.drop (oscTermLen l5))
      else b :: queryGo fuel rest
    else b :: queryGo fuel rest

/-- `filterTerminalQuerySequences` (part_003, second copy). -/
def filterTerminalQuerySequences (data : List Nat) : List Nat :=
  queryGo data.length data

/-- One chunk through the filter pipeline of `DefaultHistoryFilter.Filter`:
empty data passes through; otherwise the four scanners run in order and
the chunk is dropped as soon as any of them leaves no bytes, else kept
with the filtered data (the `Size` field is not updated, as in the
source). -/
def filterChunk? (c : TerminalDataChunk) : Option TerminalDataChunk :=
  if c.data = [] then some c
  else
    let d1 := filterOSCColorSequences c.data
    if d1 = [] then none
    else
      let d2 := filterCSIDeviceAttributeSequences d1
      if d2 = [] then none
      else
        let d3 := filterCSICursorPositionReportSequences d2
        if d3 = [] then none
        else
          let d4 := filterTerminalQuerySequences d3
          if d4 = [] then none
          else some { c with data := d4 }

/-- `DefaultHistoryFilter.Filter` (part_003). -/
def DefaultHistoryFilter.Filter (chunks : List TerminalDataChunk) :
    List TerminalDataChunk :=
  if chunks = [] then chunks else chunks.filterMap filterChunk?

theorem getUsedChunks_def (rb : TerminalRingBuffer) :
    getUsedChunks rb = if rb.full then rb.size else usedOf rb.head rb.tail rb.size := rfl

theorem usedOf_lt {h t n : Nat} (hh : h < n) (ht : t < n) : usedOf h t n < n := by
  unfold usedOf; split <;> omega

theorem tail_add_usedOf_mod {h t n : Nat} (hh : h < n) (ht : t < n) :
    (t + usedOf h t n) % n = h := by
  unfold usedOf
  split
  · have he : t + (h - t) = h := by omega
    rw [he, Nat.mod_eq_of_lt hh]
  · have he : t + (n - t + h) = h + n := by omega
    rw [he, Nat.add_mod_right, Nat.mod_eq_of_lt hh]

theorem usedOf_tail_add_mod {t u n : Nat} (ht : t < n) (hu : u < n) :
    usedOf ((t + u) % n) t n = u := by
  rcases Nat.lt_or_ge (t + u) n with hlt | hge
  · rw [Nat.mod_eq_of_lt hlt]; unfold usedOf; split <;> omega
  · have h2 : t + u - n < n := by omega
    rw [Nat.mod_eq_sub_mod hge, Nat.mod_eq_of_lt h2]
    unfold usedOf; split <;> omega

theorem mod_index_inj {t i j n : Nat} (ht : t < n) (hi : i < n) (hj : j < n)
    (he : (t + i) % n = (t + j) % n) : i = j := by
  have h1 := usedOf_tail_add_mod ht hi
  have h2 := usedOf_tail_add_mod ht hj
  rw [he] at h1
  omega

theorem list_getD_set_self {α : Type} (l : List α) (i : Nat) (a d : α)
    (h : i < l.length) : (l.set i a).getD i d = a := by
  induction l generalizing i with
  | nil => simp at h
  | cons x xs ih =>
    cases i with
    | zero => simp
    | succ j => simpa using ih j (by simpa using h)

theorem list_getD_set_ne {α : Type} (l : List α) (i j : Nat) (a d : α)
    (h : i ≠ j) : (l.set i a).getD j d = l.getD j d := by
  induction l generalizing i j with
  | nil => simp
  | cons x xs ih =>
    cases i with
    | zero => cases j with
      | zero => omega
      | succ j2 => simp
    | succ i2 => cases j with
      | zero => simp
      | succ j2 => simpa using ih i2 j2 (by omega)

theorem WF.head_eq_mod {rb : TerminalRingBuffer} (w : WF rb) (hnf : rb.full = false) :
    rb.head = (rb.tail + getUsedChunks rb) % rb.size := by
  rw [getUsedChunks_def, hnf, if_neg (by simp)]
  exact (tail_add_usedOf_mod w.head_lt w.tail_lt).symm

theorem WF.used_lt {rb : TerminalRingBuffer} (w : WF rb) (hnf : rb.full = false) :
    getUsedChunks rb < rb.size := by
  rw [getUsedChunks_def, hnf, if_neg (by simp)]
  exact usedOf_lt w.head_lt w.tail_lt

theorem ReadAllChunks_eq (rb : TerminalRingBuffer) :
    ReadAllChunks rb = (List.range (getUsedChunks rb)).filterMap (slotAt rb) := by
  unfold ReadAllChunks
  split
  · rename_i hemp
    have h1 : rb.full = false ∧ rb.head = rb.tail := by
      simpa [rbIsEmpty] using hemp
    have h2 : getUsedChunks rb = 0 := by
      rw [getUsedChunks_def, h1.1, if_neg (by simp), h1.2]
      unfold usedOf; split <;> omega
    rw [h2]
    rfl
  · rfl

theorem writeOwned_eq_of_not_full (rb : TerminalRingBuffer) (data : List Nat)
    (now : Int) (hnf : rb.full = false) (hd : data ≠ []) :
    writeOwned rb data now =
      { rb with
        chunks := rb.chunks.set rb.head (some (writtenChunk rb data now)),
        totalBytes := rb.totalBytes + (data.length : Int),
        writeCount := rb.writeCount + 1,
        nextSequence := rb.nextSequence + 1,
        head := (rb.head + 1) % rb.size,
        full := (rb.head + 1) % rb.size == rb.tail } := by
  have hdl : ¬ data.length = 0 := by simpa using hd
  simp [writeOwned, hdl, hnf, writtenChunk]

theorem writeOwned_eq_of_full (rb : TerminalRingBuffer) (data : List Nat)
    (now : Int) (hf : rb.full = true) (hd : data ≠ []) :
    writeOwned rb data now =
      { rb with
        chunks := rb.chunks.set rb.head (some (writtenChunk rb data now)),
        totalBytes := rb.totalBytes - chunkSize? (rb.chunks.getD rb.head none)
          + (data.length : Int),
        writeCount := rb.writeCount + 1,
        nextSequence := rb.nextSequence + 1,
        head := (rb.head + 1) % rb.size,
        tail := (rb.tail + 1) % rb.size,
        full := (rb.head + 1) % rb.size == (rb.tail + 1) % rb.size } := by
  have hdl : ¬ data.length = 0 := by simpa using hd
  simp [writeOwned, hdl, hf, writtenChunk]

theorem ReadAll_eq_map (rb : TerminalRingBuffer) :
    ReadAll rb = (ReadAllChunks rb).map (·.data) := by
  unfold ReadAll
  rw [ReadAllChunks_eq]
  split
  · rename_i hemp
    have h1 : rb.full = false ∧ rb.head = rb.tail := by
      simpa [rbIsEmpty] using hemp
    have h2 : getUsedChunks rb = 0 := by
      rw [getUsedChunks_def, h1.1, if_neg (by simp), h1.2]
      unfold usedOf; split <;> omega
    rw [h2]
    rfl
  · rw [List.map_filterMap]

theorem usedOf_self (t n : Nat) : usedOf t t n = 0 := by
  unfold usedOf; split <;> omega

theorem getUsedChunks_fields (rb : TerminalRingBuffer) :
    getUsedChunks rb = if rb.full = true then rb.size
      else usedOf rb.head rb.tail rb.size := by
  rw [getUsedChunks_def]

theorem slotAt_fields (rb : TerminalRingBuffer) (i : Nat) :
    slotAt rb i = rb.chunks.getD ((rb.tail + i) % rb.size) none := rfl

/-- Effect of a write on a non-full well-formed buffer: the new chunk is
appended to the retained list. -/
theorem writeOwned_not_full (rb : TerminalRingBuffer) (data : List Nat)
    (now : Int) (w : WF rb) (hnf : rb.full = false) (hd : data ≠ []) :
    WF (writeOwned rb data now) ∧
    ReadAllChunks (writeOwned rb data now)
      = ReadAllChunks rb ++ [writtenChunk rb data now] ∧
    getUsedChunks (writeOwned rb data now) = getUsedChunks rb + 1 ∧
    ((writeOwned rb data now).full = true ↔ getUsedChunks rb + 1 = rb.size) ∧
    (writeOwned rb data now).totalBytes = rb.totalBytes + (data.length : Int) ∧
    (writeOwned rb data now).nextSequence = rb.nextSequence + 1 ∧
    (writeOwned rb data now).size = rb.size ∧
    (writeOwned rb data now).tail = rb.tail := by
  have hn : 0 < rb.size := w.size_pos
  have hu : getUsedChunks rb < rb.size := w.used_lt hnf
  have hhead : rb.head = (rb.tail + getUsedChunks rb) % rb.size := w.head_eq_mod hnf
  have heq := writeOwned_eq_of_not_full rb data now hnf hd
  set u := getUsedChunks rb with hu_def
  set ch := writtenChunk rb data now with hch_def
  -- field values of the written buffer
  have f_chunks : (writeOwned rb data now).chunks = rb.chunks.set rb.head (some ch) := by
    rw [heq]
  have f_head : (writeOwned rb data now).head = (rb.head + 1) % rb.size := by rw [heq]
  have f_tail : (writeOwned rb data now).tail = rb.tail := by rw [heq]
  have f_size : (writeOwned rb data now).size = rb.size := by rw [heq]
  have f_full : (writeOwned rb data now).full = ((rb.head + 1) % rb.size == rb.tail) := by
    rw [heq]
  have f_bytes : (writeOwned rb data now).totalBytes
      = rb.totalBytes + (data.length : Int) := by rw [heq]
  have f_seq : (writeOwned rb data now).nextSequence = rb.nextSequence + 1 := by rw [heq]
  have hh1 : (rb.head + 1) % rb.size = (rb.tail + (u + 1)) % rb.size := by
    rw [hhead, Nat.mod_add_mod, Nat.add_assoc]
  -- the full flag after the write, and the new used count
  have hfull' : ((rb.head + 1) % rb.size == rb.tail) = true ↔ u + 1 = rb.size := by
    constructor
    · intro hbeq
      have hx : (rb.tail + (u + 1)) % rb.size = rb.tail := by
        rw [← hh1]; simpa using hbeq
      by_contra hne
      have hlt : u + 1 < rb.size := by omega
      have hmod := usedOf_tail_add_mod w.tail_lt hlt
      rw [hx, usedOf_self] at hmod
      omega
    · intro hx
      have hy : (rb.head + 1) % rb.size = rb.tail := by
        rw [hh1, hx, Nat.add_mod_right, Nat.mod_eq_of_lt w.tail_lt]
      simp [hy]
  have hused' : getUsedChunks (writeOwned rb data now) = u + 1 := by
    rw [getUsedChunks_fields, f_full, f_head, f_tail, f_size]
    by_cases hc : u + 1 = rb.size
    · rw [if_pos (hfull'.mpr hc)]
      omega
    · have hlt : u + 1 < rb.size := by omega
      rw [if_neg (fun hb => hc (hfull'.mp hb)), hh1]
      exact usedOf_tail_add_mod w.tail_lt hlt
  -- slots below the old used count are untouched
  have hslot_lt : ∀ i, i < u → slotAt (writeOwned rb data now) i = slotAt rb i := by
    intro i hi
    rw [slotAt_fields, slotAt_fields, f_chunks, f_tail, f_size]
    apply list_getD_set_ne
    intro hcontra
    rw [hhead] at hcontra
    have := mod_index_inj w.tail_lt hu (by omega : i < rb.size) hcontra
    omega
  -- the slot at the old used count now holds the written chunk
  have hslot_eq : slotAt (writeOwned rb data now) u = some ch := by
    rw [slotAt_fields, f_chunks, f_tail, f_size, ← hhead]
    exact list_getD_set_self _ _ _ _ (w.chunks_len ▸ w.head_lt)
  have hretained : ReadAllChunks (writeOwned rb data now) = ReadAllChunks rb ++ [ch] := by
    rw [ReadAllChunks_eq, ReadAllChunks_eq, hused', List.range_succ,
      List.filterMap_append]
    congr 1
    · exact List.filterMap_congr fun i hi => hslot_lt i (List.mem_range.mp hi)
    · simp [List.filterMap_cons, hslot_eq]
  refine ⟨?_, hretained, hused', by rw [f_full]; exact hfull', f_bytes, f_seq,
    f_size, f_tail⟩
  constructor
  · rw [f_size]; exact hn
  · rw [f_chunks, f_size]; simpa using w.chunks_len
  · rw [f_head, f_size]; exact Nat.mod_lt _ hn
  · rw [f_tail, f_size]; exact w.tail_lt
  · rw [f_full, f_head, f_tail]
    intro hb
    simpa using hb
  · intro i hi
    rw [hused'] at hi
    rcases Nat.lt_or_ge i u with hlt | hge
    · rw [hslot_lt i hlt]
      exact w.used_some i hlt
    · have hieq : i = u := by omega
      rw [hieq, hslot_eq]
      rfl
  · rw [f_bytes, hretained, w.bytes_eq]
    simp [sumSizes, hch_def, writtenChunk]

/-- Effect of a write on a full well-formed buffer: the oldest retained chunk
is dropped (its size subtracted first) and the new chunk appended. -/
theorem writeOwned_full (rb : TerminalRingBuffer) (data : List Nat)
    (now : Int) (w : WF rb) (hf : rb.full = true) (hd : data ≠ []) :
    WF (writeOwned rb data now) ∧
    ReadAllChunks (writeOwned rb data now)
      = (ReadAllChunks rb).drop 1 ++ [writtenChunk rb data now] ∧
    getUsedChunks (writeOwned rb data now) = rb.size ∧
    (writeOwned rb data now).full = true ∧
    (writeOwned rb data now).totalBytes
      = rb.totalBytes - chunkSize? (rb.chunks.getD rb.head none) + (data.length : Int) ∧
    (writeOwned rb data now).nextSequence = rb.nextSequence + 1 ∧
    (writeOwned rb data now).size = rb.size := by
  have hn : 0 < rb.size := w.size_pos
  have hht : rb.head = rb.tail := w.full_head_eq hf
  have heq := writeOwned_eq_of_full rb data now hf hd
  set ch := writtenChunk rb data now with hch_def
  have f_chunks : (writeOwned rb data now).chunks = rb.chunks.set rb.head (some ch) := by
    rw [heq]
  have f_head : (writeOwned rb data now).head = (rb.head + 1) % rb.size := by rw [heq]
  have f_tail : (writeOwned rb data now).tail = (rb.tail + 1) % rb.size := by rw [heq]
  have f_size : (writeOwned rb data now).size = rb.size := by rw [heq]
  have f_full : (writeOwned rb data now).full
      = ((rb.head + 1) % rb.size == (rb.tail + 1) % rb.size) := by rw [heq]
  have f_bytes : (writeOwned rb data now).totalBytes
      = rb.totalBytes - chunkSize? (rb.chunks.getD rb.head none) + (data.length : Int) := by
    rw [heq]
  have f_seq : (writeOwned rb data now).nextSequence = rb.nextSequence + 1 := by rw [heq]
  have hused : getUsedChunks rb = rb.size := by rw [getUsedChunks_fields, if_pos hf]
  have hfull' : (writeOwned rb data now).full = true := by
    rw [f_full, hht]
    simp
  have hused' : getUsedChunks (writeOwned rb data now) = rb.size := by
    rw [getUsedChunks_fields, if_pos hfull', f_size]
  -- slot shift: offset i of the new buffer reads offset i+1 of the old one
  have hslot_shift : ∀ i, i < rb.size - 1 →
      slotAt (writeOwned rb data now) i = slotAt rb (i + 1) := by
    intro i hi
    rw [slotAt_fields, slotAt_fields, f_chunks, f_tail, f_size, Nat.mod_add_mod]
    have hidx : rb.tail + 1 + i = rb.tail + (i + 1) := by omega
    rw [hidx]
    apply list_getD_set_ne
    intro hcontra
    rw [hht] at hcontra
    have h0 : (rb.tail + 0) % rb.size = rb.tail := by
      simpa using Nat.mod_eq_of_lt w.tail_lt
    have hcontra2 : (rb.tail + 0) % rb.size = (rb.tail + (i + 1)) % rb.size := by
      rw [h0]; exact hcontra
    have := mod_index_inj w.tail_lt (by omega : (0 : Nat) < rb.size)
      (by omega : i + 1 < rb.size) hcontra2
    omega
  -- the freed slot (old head = old tail) is read last and holds the new chunk
  have hslot_last : slotAt (writeOwned rb data now) (rb.size - 1) = some ch := by
    rw [slotAt_fields, f_chunks, f_tail, f_size, Nat.mod_add_mod]
    have hidx : rb.tail + 1 + (rb.size - 1) = rb.tail + rb.size := by omega
    rw [hidx, Nat.add_mod_right, Nat.mod_eq_of_lt w.tail_lt, hht]
    exact list_getD_set_self _ _ _ _ (w.chunks_len ▸ w.tail_lt)
  -- the old retained list starts with the chunk in the overwritten slot
  have hslot0 : slotAt rb 0 = rb.chunks.getD rb.head none := by
    rw [slotAt_fields, hht]
    simp [Nat.mod_eq_of_lt w.tail_lt]
  have hslot0_some : (slotAt rb 0).isSome = true :=
    w.used_some 0 (by omega)
  obtain ⟨c0, hc0⟩ := Option.isSome_iff_exists.mp hslot0_some
  have hold : ReadAllChunks rb
      = c0 :: (List.range (rb.size - 1)).filterMap (fun i => slotAt rb (i + 1)) := by
    rw [ReadAllChunks_eq, hused]
    have hsz : rb.size = (rb.size - 1) + 1 := by omega
    rw [hsz, List.range_succ_eq_map]
    rw [List.filterMap_cons]
    rw [hc0]
    rw [List.filterMap_map]
    rfl
  have hnew : ReadAllChunks (writeOwned rb data now)
      = (List.range (rb.size - 1)).filterMap (fun i => slotAt rb (i + 1)) ++ [ch] := by
    rw [ReadAllChunks_eq, hused']
    have hsz : rb.size = (rb.size - 1) + 1 := by omega
    rw [hsz, List.range_succ, List.filterMap_append]
    congr 1
    · exact List.filterMap_congr fun i hi => hslot_shift i (List.mem_range.mp hi)
    · simp [List.filterMap_cons, hslot_last]
  have hretained : ReadAllChunks (writeOwned rb data now)
      = (ReadAllChunks rb).drop 1 ++ [ch] := by
    rw [hnew, hold]
    rfl
  refine ⟨?_, hretained, hused', hfull', f_bytes, f_seq, f_size⟩
  constructor
  · rw [f_size]; exact hn
  · rw [f_chunks, f_size]; simpa using w.chunks_len
  · rw [f_head, f_size]; exact Nat.mod_lt _ hn
  · rw [f_tail, f_size]; exact Nat.mod_lt _ hn
  · intro _
    rw [f_head, f_tail, hht]
  · intro i hi
    rw [hused'] at hi
    rcases Nat.lt_or_ge i (rb.size - 1) with hlt | hge
    · rw [hslot_shift i hlt]
      exact w.used_some (i + 1) (by omega)
    · have hieq : i = rb.size - 1 := by omega
      rw [hieq, hslot_last]
      rfl
  · rw [f_bytes, hretained, w.bytes_eq, hold, ← hslot0, hc0]
    simp [sumSizes, hch_def, writtenChunk, chunkSize?]

theorem WF_writeOwned (rb : TerminalRingBuffer) (data : List Nat) (now : Int)
    (w : WF rb) : WF (writeOwned rb data now) := by
  by_cases hd : data = []
  · have hrw : writeOwned rb data now = rb := by
      simp [writeOwned, hd]
    rw [hrw]; exact w
  · rcases hfull : rb.full with _ | _
    · exact (writeOwned_not_full rb data now w hfull hd).1
    · exact (writeOwned_full rb data now w hfull hd).1

theorem WF_Clear (rb : TerminalRingBuffer) (w : WF rb) : WF (Clear rb) := by
  have hused : getUsedChunks (Clear rb) = 0 := by
    rw [getUsedChunks_fields]
    simp [Clear, usedOf_self]
  constructor
  · exact w.size_pos
  · simp [Clear]
  · exact w.size_pos
  · exact w.size_pos
  · intro hb
    simp [Clear] at hb
  · intro i hi
    rw [hused] at hi
    omega
  · have hread : ReadAllChunks (Clear rb) = [] := by
      rw [ReadAllChunks_eq, hused]
      rfl
    rw [hread]
    simp [Clear, sumSizes]

theorem WF_new (size : Int) : WF (NewTerminalRingBuffer size) := by
  have hn : 0 < (NewTerminalRingBuffer size).size := by
    simp only [NewTerminalRingBuffer]
    split <;> omega
  have hused : getUsedChunks (NewTerminalRingBuffer size) = 0 := by
    rw [getUsedChunks_fields]
    simp [NewTerminalRingBuffer, usedOf_self]
  constructor
  · exact hn
  · simp [NewTerminalRingBuffer]
  · exact hn
  · exact hn
  · intro hb
    simp [NewTerminalRingBuffer] at hb
  · intro i hi
    rw [hused] at hi
    omega
  · have hread : ReadAllChunks (NewTerminalRingBuffer size) = [] := by
      rw [ReadAllChunks_eq, hused]
      rfl
    rw [hread]
    simp [NewTerminalRingBuffer, sumSizes]

theorem WF_applyOps (rb : TerminalRingBuffer) (ops : List RBOp) (w : WF rb) :
    WF (applyOps rb ops) := by
  induction ops generalizing rb with
  | nil => exact w
  | cons op rest ih =>
    cases op with
    | write data now => exact ih _ (WF_writeOwned rb data now w)
    | clear => exact ih _ (WF_Clear rb w)

theorem expectedChunks_append (s now : Int) (ws : List (List Nat)) (a : List Nat) :
    expectedChunks s now (ws ++ [a])
      = expectedChunks s now ws
        ++ [{ sequence := s + (ws.length : Int), data := a, timestamp := now,
              size := (a.length : Int) }] := by
  induction ws generalizing s with
  | nil => simp [expectedChunks]
  | cons d ws ih =>
    rw [List.cons_append, expectedChunks, expectedChunks, ih (s + 1),
      List.cons_append, List.length_cons]
    have hlen : s + 1 + (ws.length : Int) = s + ((ws.length + 1 : Nat) : Int) := by
      push_cast
      ring
    rw [hlen]

theorem expectedChunks_length (s now : Int) (ws : List (List Nat)) :
    (expectedChunks s now ws).length = ws.length := by
  induction ws generalizing s with
  | nil => rfl
  | cons d ws ih => simp [expectedChunks, ih (s + 1)]

theorem expectedChunks_data (s now : Int) (ws : List (List Nat)) :
    (expectedChunks s now ws).map (·.data) = ws := by
  induction ws generalizing s with
  | nil => rfl
  | cons d ws ih => simp [expectedChunks, ih (s + 1)]

theorem expectedChunks_seq (s now : Int) (ws : List (List Nat)) :
    (expectedChunks s now ws).map (·.sequence)
      = (List.range ws.length).map (fun (i : Nat) => s + (i : Int)) := by
  induction ws generalizing s with
  | nil => rfl
  | cons d ws ih =>
    rw [List.length_cons, List.range_succ_eq_map]
    simp only [expectedChunks, List.map_cons, List.map_map]
    rw [ih (s + 1)]
    congr 1
    · simp
    · apply List.map_congr_left
      intro i _
      simp only [Function.comp_apply]
      push_cast
      ring

theorem expectedChunks_drop (s now : Int) (ws : List (List Nat)) (j : Nat) :
    (expectedChunks s now ws).drop j
      = expectedChunks (s + (j : Int)) now (ws.drop j) := by
  induction ws generalizing s j with
  | nil => simp [expectedChunks]
  | cons d ws ih =>
    cases j with
    | zero => simp
    | succ j2 =>
      simp only [expectedChunks, List.drop_succ_cons, ih (s + 1) j2]
      congr 1
      push_cast
      ring

/-- Cumulative effect of a run of non-empty writes on a fresh buffer of
capacity `N ≥ 1`: the retained chunks are the expected chunks of the last
`N` payloads, with consecutive sequence numbers continuing to grow. -/
theorem writeAll_spec (N : Nat) (hN : 1 ≤ N) (now : Int) (ws : List (List Nat))
    (hws : ∀ d ∈ ws, d ≠ []) :
    WF (writeAll (NewTerminalRingBuffer (N : Int)) ws now) ∧
    (writeAll (NewTerminalRingBuffer (N : Int)) ws now).size = N ∧
    (writeAll (NewTerminalRingBuffer (N : Int)) ws now).nextSequence
      = (ws.length : Int) + 1 ∧
    getUsedChunks (writeAll (NewTerminalRingBuffer (N : Int)) ws now)
      = min ws.length N ∧
    ((writeAll (NewTerminalRingBuffer (N : Int)) ws now).full = true
      ↔ N ≤ ws.length) ∧
    ReadAllChunks (writeAll (NewTerminalRingBuffer (N : Int)) ws now)
      = (expectedChunks 1 now ws).drop (ws.length - N) := by
  induction ws using List.reverseRecOn with
  | nil =>
    have hsz : (NewTerminalRingBuffer (N : Int)).size = N := by
      simp only [NewTerminalRingBuffer]
      rw [if_neg (by omega)]
      simp
    have hused : getUsedChunks (NewTerminalRingBuffer (N : Int)) = 0 := by
      rw [getUsedChunks_fields]
      simp [NewTerminalRingBuffer, usedOf_self]
    refine ⟨WF_new _, hsz, by simp [writeAll, NewTerminalRingBuffer], ?_, ?_, ?_⟩
    · simpa [writeAll] using hused
    · simp [writeAll, NewTerminalRingBuffer]
      omega
    · show ReadAllChunks (NewTerminalRingBuffer (N : Int)) = _
      rw [ReadAllChunks_eq, hused]
      simp [expectedChunks]
  | append_singleton ws a ih =>
    have hws' : ∀ d ∈ ws, d ≠ [] := fun d hd => hws d (by simp [hd])
    have ha : a ≠ [] := hws a (by simp)
    obtain ⟨w, hsize, hseq, hused, hfull, hread⟩ := ih hws'
    set prev := writeAll (NewTerminalRingBuffer (N : Int)) ws now with hprev
    have hlen2 : (ws ++ [a]).length = ws.length + 1 := by simp
    have hstep : writeAll (NewTerminalRingBuffer (N : Int)) (ws ++ [a]) now
        = writeOwned prev a now := by
      simp only [writeAll, List.foldl_append, List.foldl_cons, List.foldl_nil]
      rfl
    have hchunk : writtenChunk prev a now
        = { sequence := 1 + (ws.length : Int), data := a, timestamp := now,
            size := (a.length : Int) } := by
      simp [writtenChunk, hseq]
      ring
    rcases Nat.lt_or_ge ws.length N with hc | hc
    · -- the buffer is not yet full: the new chunk is appended, nothing dropped
      have hnf : prev.full = false := by
        rcases hb : prev.full with _ | _
        · rfl
        · exact absurd (hfull.mp hb) (by omega)
      obtain ⟨w', hret', hused', hfull', hbytes', hseq', hsize', htail'⟩ :=
        writeOwned_not_full prev a now w hnf ha
      rw [hstep]
      refine ⟨w', by rw [hsize', hsize],
        by rw [hseq', hseq, hlen2]; push_cast; ring, ?_, ?_, ?_⟩
      · rw [hused', hused, hlen2]
        omega
      · rw [hfull', hused, hsize, hlen2]
        omega
      · rw [hret', hread, hchunk, expectedChunks_append]
        have h0 : ws.length - N = 0 := by omega
        have h1 : (ws ++ [a]).length - N = 0 := by rw [hlen2]; omega
        rw [h0, h1]
        simp
    · -- the buffer is full: the oldest chunk is dropped, the new one appended
      have hf : prev.full = true := hfull.mpr hc
      obtain ⟨w', hret', hused', hfull', hbytes', hseq', hsize'⟩ :=
        writeOwned_full prev a now w hf ha
      rw [hstep]
      refine ⟨w', by rw [hsize', hsize],
        by rw [hseq', hseq, hlen2]; push_cast; ring, ?_, ?_, ?_⟩
      · rw [hused', hsize, hlen2]
        omega
      · rw [hfull', hlen2]
        simp
        omega
      · rw [hret', hread, hchunk, expectedChunks_append]
        have hlen : (expectedChunks 1 now ws).length = ws.length :=
          expectedChunks_length 1 now ws
        have hd1 : ((expectedChunks 1 now ws).drop (ws.length - N)).drop 1
            = (expectedChunks 1 now ws).drop ((ws ++ [a]).length - N) := by
          rw [List.drop_drop]
          congr 1
          rw [hlen2]
          omega
        rw [hd1]
        rw [List.drop_append_of_le_length (by rw [hlen, hlen2]; omega)]

theorem mapHas_iff {α : Type} (m : List (Int × α)) (k : Int) :
    mapHas m k = true ↔ ∃ kc ∈ m, kc.1 = k := by
  rw [mapHas, List.find?_isSome]
  constructor
  · rintro ⟨kc, hm, hk⟩
    exact ⟨kc, hm, by simpa using hk⟩
  · rintro ⟨kc, hm, hk⟩
    exact ⟨kc, hm, by simpa using hk⟩

theorem mapGet?_some {α : Type} {m : List (Int × α)} {k : Int} {v : α}
    (h : mapGet? m k = some v) : ∃ kc ∈ m, kc.1 = k ∧ kc.2 = v := by
  rw [mapGet?] at h
  rcases hf : m.find? (fun p => p.1 == k) with _ | kc
  · rw [hf] at h
    simp at h
  · rw [hf] at h
    simp at h
    have hk := List.find?_some hf
    refine ⟨kc, List.mem_of_find?_eq_some hf, by simpa using hk, by simpa using h⟩

theorem mapGet?_none {α : Type} {m : List (Int × α)} {k : Int}
    (h : mapGet? m k = none) : mapHas m k = false := by
  rw [mapGet?] at h
  rw [mapHas]
  rcases hf : m.find? (fun p => p.1 == k) with _ | kc
  · rw [hf]
    rfl
  · rw [hf] at h
    simp at h

theorem mem_mapDelete_iff {α : Type} (m : List (Int × α)) (k : Int)
    (kc : Int × α) : kc ∈ mapDelete m k ↔ kc ∈ m ∧ kc.1 ≠ k := by
  rw [mapDelete, List.mem_filter]
  simp

theorem mapDelete_keys_nodup {α : Type} (m : List (Int × α)) (k : Int)
    (h : (m.map Prod.fst).Nodup) : ((mapDelete m k).map Prod.fst).Nodup := by
  rw [mapDelete]
  exact ((List.filter_sublist m).map Prod.fst).nodup h

theorem mapHas_mapDelete {α : Type} {m : List (Int × α)} {k j : Int}
    (h : mapHas (mapDelete m k) j = true) : mapHas m j = true := by
  rw [mapHas_iff] at h ⊢
  obtain ⟨kc, hm, hk⟩ := h
  exact ⟨kc, (mem_mapDelete_iff m k kc).mp hm |>.1, hk⟩

theorem mapSet_not_has {α : Type} (m : List (Int × α)) (k : Int) (v : α)
    (h : mapHas m k = false) : mapSet m k v = m ++ [(k, v)] := by
  rw [mapSet, h]
  rfl

theorem mapGet?_isSome {α : Type} {m : List (Int × α)} {k : Int} {v : α}
    (h : mapGet? m k = some v) : mapHas m k = true := by
  rw [mapGet?] at h
  rw [mapHas]
  rcases hf : m.find? (fun p => p.1 == k) with _ | kc
  · rw [hf] at h
    simp at h
  · rw [hf]
    rfl

theorem drainLoop_eq_some {pending : List (Int × TWChunk)} {ia : List (Int × Int)}
    {e : Int} {c : TWChunk} (h : mapGet? pending e = some c) :
    drainLoop pending ia e =
      (c :: (drainLoop (mapDelete pending e) (mapDelete ia e) (e + 1)).1,
       (drainLoop (mapDelete pending e) (mapDelete ia e) (e + 1)).2) := by
  rw [drainLoop.eq_def]
  split
  · rename_i c2 h2
    rw [h] at h2
    cases h2
    rfl
  · rename_i h2
    rw [h] at h2
    cases h2

theorem drainLoop_eq_none {pending : List (Int × TWChunk)} {ia : List (Int × Int)}
    {e : Int} (h : mapGet? pending e = none) :
    drainLoop pending ia e = ([], pending, ia, e) := by
  rw [drainLoop.eq_def]
  split
  · rename_i c2 h2
    rw [h] at h2
    cases h2
  · rfl

/-- Full behaviour of the drain loop: it releases the contiguous run of
pending chunks starting at `e` (length `d`), removing exactly those keys, and
stops at the first missing sequence. -/
theorem drainLoop_spec (chunkOf : Int → TWChunk) (pending : List (Int × TWChunk))
    (ia : List (Int × Int)) (e : Int) :
    (pending.map Prod.fst).Nodup → (∀ kc ∈ pending, kc.2 = chunkOf kc.1) →
    ∃ d : Nat,
      (drainLoop pending ia e).2.2.2 = e + (d : Int) ∧
      (drainLoop pending ia e).1
        = (List.range d).map (fun (i : Nat) => chunkOf (e + (i : Int))) ∧
      (∀ k : Int, e ≤ k → k < e + (d : Int) → mapHas pending k = true) ∧
      mapHas (drainLoop pending ia e).2.1 (e + (d : Int)) = false ∧
      (∀ kc, kc ∈ (drainLoop pending ia e).2.1 ↔
        kc ∈ pending ∧ ¬(e ≤ kc.1 ∧ kc.1 < e + (d : Int))) ∧
      (∀ q ∈ (drainLoop pending ia e).2.2.1, q ∈ ia) ∧
      ((drainLoop pending ia e).2.1.map Prod.fst).Nodup := by
  induction pending, ia, e using drainLoop.induct with
  | case1 pending ia e c h ih =>
    intro hnd hvals
    obtain ⟨kc, hkm, hk1, hk2⟩ := mapGet?_some h
    have hc : c = chunkOf e := by rw [← hk2, hvals kc hkm, hk1]
    obtain ⟨d', hd1, hd2, hd3, hd4, hd5, hd6, hd7⟩ :=
      ih (mapDelete_keys_nodup _ _ hnd)
        (fun kc2 hm => hvals kc2 ((mem_mapDelete_iff _ _ _).mp hm).1)
    rw [drainLoop_eq_some h]
    refine ⟨d' + 1, ?_, ?_, ?_, ?_, ?_, ?_, hd7⟩
    · rw [hd1]
      push_cast
      ring
    · rw [hd2, hc, List.range_succ_eq_map, List.map_cons, List.map_map]
      rw [List.cons_eq_cons]
      refine ⟨by norm_num, ?_⟩
      apply List.map_congr_left
      intro a _
      simp only [Function.comp_apply]
      have harg : e + 1 + (a : Int) = e + ((Nat.succ a : Nat) : Int) := by
        push_cast
        ring
      rw [harg]
    · intro k hk1' hk2'
      rcases eq_or_lt_of_le hk1' with heq | hlt
      · rw [← heq]
        exact mapGet?_isSome h
      · have := hd3 k (by omega) (by push_cast at hk2' ⊢; omega)
        exact mapHas_mapDelete this
    · have harith : e + ((d' : Int) + 1) = e + 1 + (d' : Int) := by ring
      push_cast
      rw [harith]
      exact hd4
    · intro kc2
      rw [hd5 kc2, mem_mapDelete_iff]
      constructor
      · rintro ⟨⟨hm, hne⟩, hrange⟩
        refine ⟨hm, ?_⟩
        push_cast at hrange ⊢
        omega
      · rintro ⟨hm, hrange⟩
        push_cast at hrange
        refine ⟨⟨hm, by omega⟩, ?_⟩
        omega
    · intro q hq
      exact ((mem_mapDelete_iff _ _ _).mp (hd6 q hq)).1
  | case2 pending ia e h =>
    intro hnd _
    rw [drainLoop_eq_none h]
    refine ⟨0, by norm_num, rfl, ?_, ?_, ?_, fun q hq => hq, hnd⟩
    · intro k h1 h2
      omega
    · norm_num
      exact mapGet?_none h
    · intro kc2
      constructor
      · intro hm
        exact ⟨hm, by omega⟩
      · intro hm
        exact hm.1

/-- With nothing to force and a cleanup run at the same instant, the
housekeeping step is the identity. -/
theorem cleanup_noop (sb : SequenceBuffer) (t : Int)
    (hcfg : sb.config = defaultConfig) (hlast : sb.lastCleanupMs = t)
    (hlen : sb.pending.length < 60) :
    cleanupIfNeeded sb t = sb := by
  rw [cleanupIfNeeded, hcfg, hlast]
  rw [if_neg (by simp only [defaultConfig]; omega)]
  rw [if_pos (by simp only [defaultConfig]; omega)]

/-- Every inserted-at value produced by the min-scan is `t` when all recorded
insertion times are `t` (the `?? now` default also being `t`). -/
theorem minPending_time (sb : SequenceBuffer) (t : Int)
    (hia : ∀ q ∈ sb.pendingInsertedAt, q.2 = t) :
    ∀ m a, minPending sb t = some (m, a) → a = t := by
  have hget : ∀ k, (mapGet? sb.pendingInsertedAt k).getD t = t := by
    intro k
    rcases hg : mapGet? sb.pendingInsertedAt k with _ | v
    · rfl
    · obtain ⟨q, hq, _, hv⟩ := mapGet?_some hg
      rw [Option.getD_some, ← hv]
      exact hia q hq
  rw [minPending]
  suffices h : ∀ (l : List (Int × TWChunk)) (acc : Option (Int × Int)),
      (acc = none ∨ ∃ m0, acc = some (m0, t)) →
      ∀ m a,
        l.foldl
          (fun acc p =>
            match acc with
            | none => some (p.1, (mapGet? sb.pendingInsertedAt p.1).getD t)
            | some (m, t2) =>
              if p.1 < m then some (p.1, (mapGet? sb.pendingInsertedAt p.1).getD t)
              else some (m, t2))
          acc = some (m, a) → a = t by
    exact h sb.pending none (Or.inl rfl)
  intro l
  induction l with
  | nil =>
    rintro acc (rfl | ⟨m0, rfl⟩) m a hfold
    · simp at hfold
    · simp only [List.foldl_nil] at hfold
      cases hfold
      rfl
  | cons p l ih =>
    rintro acc hacc m a hfold
    rw [List.foldl_cons] at hfold
    rcases hacc with rfl | ⟨m0, rfl⟩
    · exact ih (some (p.1, (mapGet? sb.pendingInsertedAt p.1).getD t))
        (Or.inr ⟨p.1, by rw [hget p.1]⟩) m a hfold
    · rcases hlt : decide (p.1 < m0) with _ | _
      · refine ih (some (m0, t)) (Or.inr ⟨m0, rfl⟩) m a ?_
        simpa [of_decide_eq_false hlt] using hfold
      · refine ih (some (p.1, (mapGet? sb.pendingInsertedAt p.1).getD t))
          (Or.inr ⟨p.1, by rw [hget p.1]⟩) m a ?_
        simpa [of_decide_eq_true hlt] using hfold

/-- At the common scenario time, nothing has been pending for `maxStallMs`,
so the stall flush is the identity. -/
theorem flush_noop (sb : SequenceBuffer) (t : Int)
    (hia : ∀ q ∈ sb.pendingInsertedAt, q.2 = t) (hcfg : sb.config = defaultConfig) :
    flushIfStalled sb t = ([], sb) := by
  rw [flushIfStalled]
  split
  · rfl
  · rcases hm : minPending sb t with _ | ⟨m, a⟩
    · rfl
    · have ha : a = t := minPending_time sb t hia m a hm
      subst ha
      dsimp only
      rcases le_or_lt m sb.expectedSequence with hle | hgt2
      · rw [if_pos hle]
      · rw [if_neg (not_le.mpr hgt2)]
        rw [if_pos (by rw [hcfg]; simp only [defaultConfig]; omega)]

theorem pending_length_le {α : Type} (m : List (Int × α)) (done : List Int)
    (hnd : (m.map Prod.fst).Nodup)
    (hsub : ∀ kc ∈ m, kc.1 ∈ done) : m.length ≤ done.length := by
  have hsub2 : (m.map Prod.fst) ⊆ done := by
    intro k hk
    obtain ⟨kc, hm, rfl⟩ := List.mem_map.mp hk
    exact hsub kc hm
  have := (hnd.subperm hsub2).length_le
  simpa using this

/-- `push` when the housekeeping passes are identities: the remaining
dispatch on the incoming sequence number. -/
theorem push_eq_dispatch (sb : SequenceBuffer) (c : TWChunk) (t : Int)
    (hcl : cleanupIfNeeded sb t = sb) (hfl : flushIfStalled sb t = ([], sb))
    (hs : 1 ≤ c.sequence) :
    push sb c t =
      if c.sequence = sb.expectedSequence then
        (c :: (drainLoop sb.pending sb.pendingInsertedAt (sb.expectedSequence + 1)).1,
         { sb with
           expectedSequence :=
             (drainLoop sb.pending sb.pendingInsertedAt (sb.expectedSequence + 1)).2.2.2
           pending :=
             (drainLoop sb.pending sb.pendingInsertedAt (sb.expectedSequence + 1)).2.1
           pendingInsertedAt :=
             (drainLoop sb.pending sb.pendingInsertedAt (sb.expectedSequence + 1)).2.2.1 })
      else if (sb.expectedSequence < c.sequence ∧
          c.sequence ≤ sb.expectedSequence + sb.config.maxSequenceGap) ∧
          (sb.pending.length : Int) < sb.config.maxPendingChunks then
        ([],
         { sb with
           pending := mapSet sb.pending c.sequence c
           pendingInsertedAt :=
             if mapHas sb.pendingInsertedAt c.sequence then sb.pendingInsertedAt
             else mapSet sb.pendingInsertedAt c.sequence t })
      else if sb.expectedSequence < c.sequence then
        ([c],
         { sb with
           expectedSequence := c.sequence + 1
           pending := []
           pendingInsertedAt := [] })
      else ([c], sb) := by
  rw [push]
  rw [if_neg (by omega)]
  rw [hcl]
  dsimp only
  rw [hfl]
  dsimp only
  simp only [List.nil_append]

end Floeterm

namespace Floeterm

/-- One push step of the C5 scenario preserves the invariant. -/
theorem sb_push_step (n : Nat) (hn33 : n ≤ 33) (t s : Int)
    (chunkOf : Int → TWChunk) (hseq : ∀ z, (chunkOf z).sequence = z)
    (done : List Int)
    (hs1 : 1 ≤ s) (hsn : s ≤ (n : Int)) (hsnew : s ∉ done)
    (hdlen : done.length + 1 ≤ n)
    (acc : List TWChunk) (sb : SequenceBuffer)
    (inv : SBInv t chunkOf done acc sb) :
    SBInv t chunkOf (done ++ [s]) (acc ++ (push sb (chunkOf s) t).1)
      (push sb (chunkOf s) t).2 := by
  obtain ⟨r, hr, hacc⟩ := inv.acc_eq
  have hexp1 : 1 ≤ sb.expectedSequence := by rw [hr]; omega
  have hpenlen : sb.pending.length ≤ done.length :=
    pending_length_le _ _ inv.keys_nodup inv.keys_done
  have hlen60 : sb.pending.length < 60 := by omega
  have hdispatch := push_eq_dispatch sb (chunkOf s) t
    (cleanup_noop sb t inv.cfg inv.lastc hlen60)
    (flush_noop sb t inv.ia_times inv.cfg) (by rw [hseq s]; exact hs1)
  rw [hseq s] at hdispatch
  have hs_ge_e : sb.expectedSequence ≤ s := by
    by_contra hlt
    push_neg at hlt
    exact hsnew (inv.released s hs1 hlt)
  rcases eq_or_lt_of_le hs_ge_e with heq | hgt
  · -- the pushed chunk is the expected one: release it and drain the run
    obtain ⟨d, hd1, hd2, hd3, hd4, hd5, hd6, hd7⟩ :=
      drainLoop_spec chunkOf sb.pending sb.pendingInsertedAt
        (sb.expectedSequence + 1) inv.keys_nodup inv.vals
    rw [if_pos heq.symm] at hdispatch
    rw [hdispatch]
    dsimp only
    constructor
    · exact inv.cfg
    · exact inv.lastc
    · intro q hq
      exact inv.ia_times q (hd6 q hq)
    · exact hd7
    · intro kc hkc
      show (drainLoop sb.pending sb.pendingInsertedAt (sb.expectedSequence + 1)).2.2.2 < kc.1
      rw [hd1]
      obtain ⟨hmem, hrange⟩ := (hd5 kc).mp hkc
      have hgt0 := inv.keys_gt kc hmem
      have hne : kc.1 ≠ sb.expectedSequence + 1 + (d : Int) := by
        intro hcontra
        have : mapHas (drainLoop sb.pending sb.pendingInsertedAt
            (sb.expectedSequence + 1)).2.1 (sb.expectedSequence + 1 + (d : Int)) = true :=
          (mapHas_iff _ _).mpr ⟨kc, hkc, hcontra⟩
        rw [hd4] at this
        cases this
      omega
    · intro kc hkc
      exact List.mem_append_left _ (inv.keys_done kc ((hd5 kc).mp hkc).1)
    · intro kc hkc
      exact inv.vals kc ((hd5 kc).mp hkc).1
    · intro k hk1 hk2
      show k ∈ done ++ [s]
      dsimp only at hk2
      rw [hd1] at hk2
      rcases lt_trichotomy k sb.expectedSequence with hlt | hkeq | hkgt
      · exact List.mem_append_left _ (inv.released k hk1 hlt)
      · rw [hkeq, ← heq]
        exact List.mem_append_right _ (by simp)
      · have hhas := hd3 k (by omega) (by omega)
        obtain ⟨kc, hm, hkk⟩ := (mapHas_iff _ _).mp hhas
        exact List.mem_append_left _ (hkk ▸ inv.keys_done kc hm)
    · intro k hk
      show k < (drainLoop sb.pending sb.pendingInsertedAt
        (sb.expectedSequence + 1)).2.2.2 ∨ _
      rw [hd1]
      rcases List.mem_append.mp hk with hkdone | hks
      · rcases inv.done_split k hkdone with hlt | hhas
        · left
          omega
        · obtain ⟨kc, hm, hkk⟩ := (mapHas_iff _ _).mp hhas
          have hgt0 := inv.keys_gt kc hm
          by_cases hrange : k < sb.expectedSequence + 1 + (d : Int)
          · left
            exact hrange
          · right
            refine (mapHas_iff _ _).mpr ⟨kc, ?_, hkk⟩
            exact (hd5 kc).mpr ⟨hm, by omega⟩
      · left
        have : k = s := by simpa using hks
        omega
    · refine ⟨r + (1 + d), ?_, ?_⟩
      · rw [hd1, hr]
        push_cast
        ring
      · show acc ++ chunkOf s :: (drainLoop sb.pending sb.pendingInsertedAt
          (sb.expectedSequence + 1)).1 = _
        rw [hd2, hacc, List.range_add, List.map_append, List.map_map]
        congr 1
        rw [Nat.add_comm 1 d, List.range_succ_eq_map, List.map_cons, List.map_map]
        rw [List.cons_eq_cons]
        constructor
        · simp only [Function.comp_apply]
          congr 1
          rw [← heq, hr]
          push_cast
          ring
        · apply List.map_congr_left
          intro i _
          simp only [Function.comp_apply]
          congr 1
          rw [hr]
          push_cast
          ring
  · -- the pushed chunk lands in the gap and is buffered
    have hhasno : mapHas sb.pending s = false := by
      rcases hb : mapHas sb.pending s with _ | _
      · rfl
      · obtain ⟨kc, hm, hkk⟩ := (mapHas_iff _ _).mp hb
        exact absurd (hkk ▸ inv.keys_done kc hm) hsnew
    rw [if_neg (by omega)] at hdispatch
    have hcond : (sb.expectedSequence < s ∧
        s ≤ sb.expectedSequence + sb.config.maxSequenceGap) ∧
        (sb.pending.length : Int) < sb.config.maxPendingChunks := by
      refine ⟨⟨hgt, ?_⟩, ?_⟩
      · rw [inv.cfg]
        show s ≤ sb.expectedSequence + 32
        omega
      · rw [inv.cfg]
        show (sb.pending.length : Int) < 40
        omega
    rw [if_pos hcond] at hdispatch
    rw [hdispatch]
    dsimp only
    have hset : mapSet sb.pending s (chunkOf s) = sb.pending ++ [(s, chunkOf s)] :=
      mapSet_not_has _ _ _ hhasno
    constructor
    · exact inv.cfg
    · exact inv.lastc
    · intro q hq
      show q.2 = t
      rcases hb : mapHas sb.pendingInsertedAt s with _ | _
      · rw [hb] at hq
        simp only [Bool.false_eq_true, if_false] at hq
        rcases hmem : mapHas sb.pendingInsertedAt s with _ | _
        · rw [mapSet_not_has _ _ _ hmem] at hq
          rcases List.mem_append.mp hq with hq2 | hq2
          · exact inv.ia_times q hq2
          · have : q = (s, t) := by simpa using hq2
            rw [this]
        · rw [hb] at hmem
          cases hmem
      · rw [hb] at hq
        simp only [if_true] at hq
        exact inv.ia_times q hq
    · show ((mapSet sb.pending s (chunkOf s)).map Prod.fst).Nodup
      rw [hset, List.map_append]
      rw [List.nodup_append]
      refine ⟨inv.keys_nodup, by simp, ?_⟩
      intro k hk hk2
      have : k = s := by simpa using hk2
      obtain ⟨kc, hm, hkk⟩ := List.mem_map.mp hk
      exact hsnew (this ▸ hkk ▸ inv.keys_done kc hm)
    · intro kc hkc
      show sb.expectedSequence < kc.1
      rw [hset] at hkc
      rcases List.mem_append.mp hkc with hm | hm
      · exact inv.keys_gt kc hm
      · have : kc = (s, chunkOf s) := by simpa using hm
        rw [this]
        exact hgt
    · intro kc hkc
      rw [hset] at hkc
      rcases List.mem_append.mp hkc with hm | hm
      · exact List.mem_append_left _ (inv.keys_done kc hm)
      · have : kc = (s, chunkOf s) := by simpa using hm
        rw [this]
        exact List.mem_append_right _ (by simp)
    · intro kc hkc
      rw [hset] at hkc
      rcases List.mem_append.mp hkc with hm | hm
      · exact inv.vals kc hm
      · have : kc = (s, chunkOf s) := by simpa using hm
        rw [this]
    · intro k hk1 hk2
      exact List.mem_append_left _ (inv.released k hk1 hk2)
    · intro k hk
      rcases List.mem_append.mp hk with hkdone | hks
      · rcases inv.done_split k hkdone with hlt | hhas
        · left
          exact hlt
        · right
          obtain ⟨kc, hm, hkk⟩ := (mapHas_iff _ _).mp hhas
          refine (mapHas_iff _ _).mpr ⟨kc, ?_, hkk⟩
          rw [hset]
          exact List.mem_append_left _ hm
      · right
        have hks2 : k = s := by simpa using hks
        refine (mapHas_iff _ _).mpr ⟨(s, chunkOf s), ?_, by rw [hks2]⟩
        rw [hset]
        exact List.mem_append_right _ (by simp)
    · exact ⟨r, hr, by rw [List.append_nil, hacc]⟩

theorem mem_seqList {n : Nat} {s : Int} : s ∈ seqList n ↔ 1 ≤ s ∧ s ≤ (n : Int) := by
  simp only [seqList, List.mem_map, List.mem_range]
  constructor
  · rintro ⟨i, hi, rfl⟩
    omega
  · rintro ⟨h1, h2⟩
    refine ⟨(s - 1).toNat, by omega, by omega⟩

theorem seqList_nodup (n : Nat) : (seqList n).Nodup := by
  rw [seqList]
  refine (List.nodup_range n).map (fun a b hab => ?_)
  omega

theorem sb_pushAll_inv (n : Nat) (hn33 : n ≤ 33) (t : Int)
    (chunkOf : Int → TWChunk) (hseq : ∀ z, (chunkOf z).sequence = z) :
    ∀ (todo done : List Int) (acc : List TWChunk) (sb : SequenceBuffer),
    (done ++ todo).Perm (seqList n) →
    SBInv t chunkOf done acc sb →
    SBInv t chunkOf (done ++ todo)
      ((todo.map chunkOf).foldl
        (fun a c =>
          let r := push a.2 c t
          (a.1 ++ r.1, r.2)) (acc, sb)).1
      ((todo.map chunkOf).foldl
        (fun a c =>
          let r := push a.2 c t
          (a.1 ++ r.1, r.2)) (acc, sb)).2 := by
  intro todo
  induction todo with
  | nil =>
    intro done acc sb hperm inv
    simpa using inv
  | cons s todo ih =>
    intro done acc sb hperm inv
    have hnodup : (done ++ s :: todo).Nodup :=
      (hperm.nodup_iff).mpr (seqList_nodup n)
    have hsmem : s ∈ seqList n := hperm.subset (by simp)
    obtain ⟨hs1, hsn⟩ := mem_seqList.mp hsmem
    have hsnew : s ∉ done := by
      have hdisj := (List.nodup_append.mp hnodup).2.2
      intro hcontra
      exact hdisj hcontra (by simp)
    have hdlen : done.length + 1 ≤ n := by
      have := hperm.length_eq
      simp only [List.length_append, List.length_cons, seqList,
        List.length_map, List.length_range] at this
      omega
    have hstep := sb_push_step n hn33 t s chunkOf hseq done hs1 hsn hsnew hdlen
      acc sb inv
    have hperm2 : ((done ++ [s]) ++ todo).Perm (seqList n) := by
      rw [List.append_assoc]
      simpa using hperm
    have := ih (done ++ [s]) (acc ++ (push sb (chunkOf s) t).1)
      (push sb (chunkOf s) t).2 hperm2 hstep
    simp only [List.map_cons, List.foldl_cons]
    rw [List.append_assoc] at this
    simpa using this

/-- C1: The minimum-size policy does not clamp to the upper bounds.
`getMinimumTerminalSize` honours the lower clamp (`(10,3) ↦ (20,5)`) and the
zero-connection default `(80,24)`, but a single connection sized
`(10000,10000)` yields `(10000,10000)`, not `(500,200)` as the claim (and the
repository's own test `TestGetMinimumTerminalSize_ClampsToMax`, and the unused
`clampTerminalSize` helper) require. -/
theorem c1_minimum_size_not_clamped_to_max :
    TerminalGo.getMinimumTerminalSize [(10, 3)] = (20, 5) ∧
    TerminalGo.getMinimumTerminalSize [] = (80, 24) ∧
    TerminalGo.getMinimumTerminalSize [(10000, 10000)] = (10000, 10000) ∧
    TerminalGo.clampTerminalSize 10000 10000 =
      (TerminalGo.maxTerminalCols, TerminalGo.maxTerminalRows) ∧
    (10000 : Int) > TerminalGo.maxTerminalCols ∧
    (10000 : Int) > TerminalGo.maxTerminalRows := by
  refine ⟨by decide, by decide, by decide, by decide, by decide, by decide⟩

/-- C2: A resize request with `cols = 10, rows = 24` (outside `[20..500]`)
against an existing session is *not* rejected: the handler only rejects
non-positive dimensions, so it answers 204 and resizes the PTY to `10×24`
(or updates the connection size when a connId is given), even though the
declared—but never called—`validateDims` rejects these dimensions. -/
theorem c2_out_of_range_resize_accepted :
    Server.handleResize "" 10 24 true = .resizedPTY 10 24 ∧
    Server.handleResize "c1" 10 24 true = .updatedConnectionSize "c1" 10 24 ∧
    Server.validateDims 10 24 = false := by
  refine ⟨by decide, by decide, by decide⟩

/-- C3: An input of 65537 bytes (one more than the declared 64 KiB limit
`maxInputBytes`) is forwarded unchanged to the PTY write and the request
succeeds (204): the input handler never consults `maxInputBytes`. -/
theorem c3_oversized_input_written :
    Server.handleInput "c1" (List.replicate 65537 104) true =
      .wrote (List.replicate 65537 104) "c1" ∧
    ((List.replicate 65537 104).length : Int) > Server.maxInputBytes := by
  constructor
  · rfl
  · rw [List.length_replicate]
    norm_num [Server.maxInputBytes]

/-- C6: Ring buffer byte accounting. After any sequence of writes and clears
from a fresh buffer, `stats.total_bytes` equals the sum of `size` over the
retained chunks; on overflow the overwritten oldest chunk's size is
subtracted before the new chunk's size is added; `Clear` resets the total
to 0. -/
theorem c6_ring_buffer_byte_accounting :
    (∀ (size : Int) (ops : List RBOp),
      (GetStats (applyOps (NewTerminalRingBuffer size) ops)).totalBytes
        = sumSizes (ReadAllChunks (applyOps (NewTerminalRingBuffer size) ops))) ∧
    (∀ (rb : TerminalRingBuffer) (data : List Nat) (now : Int), WF rb →
      rb.full = true → data ≠ [] →
      (writeOwned rb data now).totalBytes
        = rb.totalBytes - chunkSize? (rb.chunks.getD rb.head none)
          + (data.length : Int)) ∧
    (∀ rb : TerminalRingBuffer, (GetStats (Clear rb)).totalBytes = 0) := by
  refine ⟨?_, ?_, ?_⟩
  · intro size ops
    exact (WF_applyOps _ ops (WF_new size)).bytes_eq
  · intro rb data now w hf hd
    exact (writeOwned_full rb data now w hf hd).2.2.2.2.1
  · intro rb
    rfl

/-- Witness for C6 at a concrete overflowing buffer: capacity 1, one write of
`[5]`, then an overwriting write of `[7, 7]`. -/
theorem c6_ring_buffer_byte_accounting_witness :
    (writeOwned (applyOps (NewTerminalRingBuffer 1) [.write [5] 0]) [7, 7] 3).totalBytes
      = (applyOps (NewTerminalRingBuffer 1) [.write [5] 0]).totalBytes
        - chunkSize? ((applyOps (NewTerminalRingBuffer 1) [.write [5] 0]).chunks.getD
            (applyOps (NewTerminalRingBuffer 1) [.write [5] 0]).head none)
        + (([7, 7] : List Nat).length : Int) :=
  c6_ring_buffer_byte_accounting.2.1 (applyOps (NewTerminalRingBuffer 1) [.write [5] 0])
    [7, 7] 3 (WF_applyOps (NewTerminalRingBuffer 1) [.write [5] 0] (WF_new 1))
    (by decide) (by decide)

/-- C9: Ring buffer overflow order. For capacity `N ≥ 1` and `K > N` writes of
distinct single-byte payloads, `ReadAll` returns exactly the last `N` payloads
in write order; the sequence numbers on the retained chunks are the
consecutive run `K-N+1, …, K` (strictly increasing, never reused: the next
sequence to be issued is `K+1`). -/
theorem c9_ring_buffer_overflow_order (N : Nat) (hN : 1 ≤ N) (ws : List Nat)
    (hdist : ws.Nodup) (hK : N < ws.length) (now : Int) :
    ReadAll (writeAll (NewTerminalRingBuffer (N : Int)) (ws.map (fun b => [b])) now)
      = (ws.drop (ws.length - N)).map (fun b => [b]) ∧
    (ReadAllChunks (writeAll (NewTerminalRingBuffer (N : Int))
        (ws.map (fun b => [b])) now)).map (·.sequence)
      = (List.range N).map
          (fun (i : Nat) => ((ws.length - N : Nat) : Int) + (i : Int) + 1) ∧
    List.Chain' (· < ·)
      ((ReadAllChunks (writeAll (NewTerminalRingBuffer (N : Int))
        (ws.map (fun b => [b])) now)).map (·.sequence)) ∧
    (writeAll (NewTerminalRingBuffer (N : Int)) (ws.map (fun b => [b])) now).nextSequence
      = (ws.length : Int) + 1 := by
  have hne : ∀ d ∈ ws.map (fun b => [b]), d ≠ [] := by
    intro d hd
    simp only [List.mem_map] at hd
    obtain ⟨b, _, rfl⟩ := hd
    simp
  obtain ⟨w, hsize, hseq, hused, hfull, hread⟩ :=
    writeAll_spec N hN now (ws.map (fun b => [b])) hne
  have hlenm : (ws.map (fun b => [b])).length = ws.length := by simp
  rw [hlenm] at hseq hread
  rw [expectedChunks_drop] at hread
  have hdroplen : ((ws.map (fun b => [b])).drop (ws.length - N)).length = N := by
    rw [List.length_drop, hlenm]
    omega
  have hseqlist : (ReadAllChunks (writeAll (NewTerminalRingBuffer (N : Int))
      (ws.map (fun b => [b])) now)).map (·.sequence)
      = (List.range N).map
          (fun (i : Nat) => ((ws.length - N : Nat) : Int) + (i : Int) + 1) := by
    rw [hread, expectedChunks_seq, hdroplen]
    apply List.map_congr_left
    intro i _
    ring
  refine ⟨?_, hseqlist, ?_, hseq⟩
  · rw [ReadAll_eq_map, hread, expectedChunks_data, List.map_drop]
  · rw [hseqlist]
    apply List.Pairwise.chain'
    exact (List.pairwise_lt_range N).map _ (fun a b hab => by omega)

/-- Witness for C9: capacity 1, payloads `a`, `b` (bytes 97, 98). -/
theorem c9_ring_buffer_overflow_order_witness :
    ReadAll (writeAll (NewTerminalRingBuffer ((1 : Nat) : Int))
        ([97, 98].map (fun b => [b])) 0)
      = ([97, 98].drop ([97, 98].length - 1)).map (fun b => [b]) ∧
    (ReadAllChunks (writeAll (NewTerminalRingBuffer ((1 : Nat) : Int))
        ([97, 98].map (fun b => [b])) 0)).map (·.sequence)
      = (List.range 1).map
          (fun (i : Nat) => ((([97, 98] : List Nat).length - 1 : Nat) : Int) + (i : Int) + 1) ∧
    List.Chain' (· < ·)
      ((ReadAllChunks (writeAll (NewTerminalRingBuffer ((1 : Nat) : Int))
        ([97, 98].map (fun b => [b])) 0)).map (·.sequence)) ∧
    (writeAll (NewTerminalRingBuffer ((1 : Nat) : Int))
        ([97, 98].map (fun b => [b])) 0).nextSequence
      = (([97, 98] : List Nat).length : Int) + 1 :=
  c9_ring_buffer_overflow_order 1 (by decide) [97, 98] (by decide) (by decide) 0

theorem sb_base_inv (t : Int) (chunkOf : Int → TWChunk) :
    SBInv t chunkOf [] []
      (SequenceBuffer.reset (mkSequenceBuffer defaultConfig t) 1 t) := by
  constructor
  · rfl
  · rfl
  · intro q hq
    simp [SequenceBuffer.reset, mkSequenceBuffer] at hq
  · simp [SequenceBuffer.reset, mkSequenceBuffer]
  · intro kc hkc
    simp [SequenceBuffer.reset, mkSequenceBuffer] at hkc
  · intro kc hkc
    simp [SequenceBuffer.reset, mkSequenceBuffer] at hkc
  · intro kc hkc
    simp [SequenceBuffer.reset, mkSequenceBuffer] at hkc
  · intro k h1 h2
    have h2' : k < max 1 1 := h2
    exact absurd h1 (by omega)
  · intro k hk
    simp at hk
  · exact ⟨0, by simp [SequenceBuffer.reset, mkSequenceBuffer], by simp⟩

/-- C5 (amended): for up to 33 chunks — strictly within the default
`maxGap` of 32, so no push is ever treated as a far-ahead jump — the
`SequenceBuffer`, reset to start sequence 1, releases exactly the chunks
with sequences `1, …, n` in sequence order, no matter in which order the
`n` distinctly-sequenced chunks are pushed. The original claim, stated
for every finite set of distinct sequences, fails once a chunk runs more
than `maxGap` ahead of the expected sequence (see the counterexample with
`n = 34`). -/
theorem c5_reorder_buffer_completeness (n : Nat) (hn33 : n ≤ 33) (t : Int)
    (chunkOf : Int → TWChunk) (hseq : ∀ z, (chunkOf z).sequence = z)
    (p : List Int) (hperm : p.Perm (seqList n)) :
    (pushAll (SequenceBuffer.reset (mkSequenceBuffer defaultConfig t) 1 t)
        (p.map chunkOf) t).1 = (seqList n).map chunkOf := by
  have hinv := sb_pushAll_inv n hn33 t chunkOf hseq p [] []
    (SequenceBuffer.reset (mkSequenceBuffer defaultConfig t) 1 t)
    (by simpa using hperm) (sb_base_inv t chunkOf)
  obtain ⟨r, hr, hacc⟩ := hinv.acc_eq
  have hrel := hinv.released
  have hds := hinv.done_split
  have hkg := hinv.keys_gt
  rw [hr] at hrel hds hkg
  simp only [List.nil_append] at hrel hds
  have ha : r ≤ n := by
    by_contra hlt
    push_neg at hlt
    have hmem : ((n : Int) + 1) ∈ p := hrel ((n : Int) + 1) (by omega) (by omega)
    have := (mem_seqList.mp (hperm.subset hmem)).2
    omega
  have hb : n ≤ r := by
    by_contra hlt
    push_neg at hlt
    have hmem : (1 + (r : Int)) ∈ seqList n :=
      mem_seqList.mpr ⟨by omega, by omega⟩
    have hp2 : (1 + (r : Int)) ∈ p := hperm.symm.subset hmem
    rcases hds _ hp2 with hlt2 | hhas
    · omega
    · obtain ⟨kc, hkc, hkeq⟩ := (mapHas_iff _ _).mp hhas
      have := hkg kc hkc
      omega
  have hrn : r = n := le_antisymm ha hb
  subst hrn
  rw [pushAll]
  rw [hacc, seqList, List.map_map]
  refine List.map_congr_left (fun i hi => ?_)
  show chunkOf (1 + (i : Int)) = chunkOf ((i : Int) + 1)
  have harg : (1 : Int) + (i : Int) = (i : Int) + 1 := by ring
  rw [harg]

/-- Witness for C5: three chunks with sequences 2, 1, 3 pushed in that
order are released as 1, 2, 3. -/
theorem c5_reorder_buffer_completeness_witness :
    (pushAll (SequenceBuffer.reset (mkSequenceBuffer defaultConfig 0) 1 0)
        ([(2 : Int), 1, 3].map (fun s => TWChunk.mk s [] 0)) 0).1 =
      (seqList 3).map (fun s => TWChunk.mk s [] 0) :=
  c5_reorder_buffer_completeness 3 (by decide) 0 (fun s => TWChunk.mk s [] 0)
    (fun _ => rfl) [2, 1, 3] (by decide)

theorem drainLoop_final_ge (pending : List (Int × TWChunk)) (ia : List (Int × Int))
    (e : Int) : e ≤ (drainLoop pending ia e).2.2.2 := by
  induction pending, ia, e using drainLoop.induct with
  | case1 pending ia e c h ih =>
    rw [drainLoop_eq_some h]
    dsimp only
    omega
  | case2 pending ia e h =>
    rw [drainLoop_eq_none h]

theorem cleanup_expected_eq (sb : SequenceBuffer) (now : Int) :
    (cleanupIfNeeded sb now).expectedSequence = sb.expectedSequence := by
  rw [cleanupIfNeeded]
  split
  · rfl
  · split
    · rfl
    · rfl

theorem flush_expected_ge (sb : SequenceBuffer) (now : Int) :
    sb.expectedSequence ≤ (flushIfStalled sb now).2.expectedSequence := by
  rw [flushIfStalled]
  split
  · exact le_refl _
  · rcases hm : minPending sb now with _ | ⟨m, a⟩
    · exact le_refl _
    · dsimp only
      split
      · exact le_refl _
      · split
        · exact le_refl _
        · rename_i hle _
          dsimp only
          have := drainLoop_final_ge sb.pending sb.pendingInsertedAt m
          omega

theorem c8_push2 (c2 : TWChunk) (hs2 : c2.sequence = 2) :
    push (mkSequenceBuffer defaultConfig 0) c2 0 =
      ([], SequenceBuffer.mk 1 [(2, c2)] [(2, 0)] 0 defaultConfig) := by
  have hd := push_eq_dispatch (mkSequenceBuffer defaultConfig 0) c2 0
    (cleanup_noop _ _ rfl rfl (by decide)) (flush_noop _ _ (by decide) rfl)
    (by rw [hs2]; norm_num)
  rw [hs2] at hd
  rw [hd]
  rw [if_neg (by decide)]
  rw [if_pos (by constructor <;> decide)]
  rfl

theorem c8_push3 (c2 c3 : TWChunk) (hs3 : c3.sequence = 3) :
    push (SequenceBuffer.mk 1 [(2, c2)] [(2, 0)] 0 defaultConfig) c3 0 =
      ([], SequenceBuffer.mk 1 [(2, c2), (3, c3)] [(2, 0), (3, 0)] 0 defaultConfig) := by
  have hd := push_eq_dispatch
    (SequenceBuffer.mk 1 [(2, c2)] [(2, 0)] 0 defaultConfig) c3 0
    (cleanup_noop _ _ rfl rfl (by norm_num))
    (flush_noop _ _
      (by intro q hq; simp only [List.mem_singleton] at hq; rw [hq]) rfl)
    (by rw [hs3]; norm_num)
  rw [hs3] at hd
  rw [hd]
  rw [if_neg (by simp)]
  rw [if_pos (by refine ⟨⟨?_, ?_⟩, ?_⟩ <;> simp [defaultConfig])]
  rfl

theorem c8_flush (c2 c3 : TWChunk) (L t1 : Int) (ht : 500 ≤ t1) :
    flushIfStalled
        (SequenceBuffer.mk 1 [(2, c2), (3, c3)] [(2, 0), (3, 0)] L defaultConfig) t1 =
      ([c2, c3], SequenceBuffer.mk 4 [] [] L defaultConfig) := by
  have hdrain : drainLoop [(2, c2), (3, c3)] [(2, 0), (3, 0)] 2 =
      ([c2, c3], [], [], 4) := by
    have h2 : mapGet? [(2, c2), (3, c3)] (2 : Int) = some c2 := rfl
    rw [drainLoop_eq_some h2]
    have hd1 : mapDelete [(2, c2), (3, c3)] (2 : Int) = [(3, c3)] := rfl
    have hd2 : mapDelete [((2 : Int), (0 : Int)), (3, 0)] (2 : Int) = [(3, 0)] := rfl
    rw [hd1, hd2]
    have h3 : mapGet? [(3, c3)] ((2 : Int) + 1) = some c3 := rfl
    rw [drainLoop_eq_some h3]
    have hd3 : mapDelete [(3, c3)] ((2 : Int) + 1) = [] := rfl
    have hd4 : mapDelete [((3 : Int), (0 : Int))] ((2 : Int) + 1) = [] := rfl
    rw [hd3, hd4]
    have h4 : mapGet? ([] : List (Int × TWChunk)) ((2 : Int) + 1 + 1) = none := rfl
    rw [drainLoop_eq_none h4]
    norm_num
  have hmp : minPending
      (SequenceBuffer.mk 1 [(2, c2), (3, c3)] [(2, 0), (3, 0)] L defaultConfig) t1 =
      some (2, 0) := rfl
  rw [flushIfStalled]
  rw [if_neg (by simp)]
  rw [hmp]
  dsimp only
  rw [if_neg (by norm_num)]
  rw [if_neg (by dsimp only [defaultConfig]; omega)]
  rw [hdrain]

/-- C8 (amended): chunks with sequences 2 and 3 pushed at time 0 into a
fresh `SequenceBuffer` (expecting 1, default configuration) are buffered,
and the next push at any time `t1 ≥ maxStallMs = 500` of a chunk with a
*positive* sequence releases chunks 2 and 3 first, before or together with
the pushed chunk. The original claim, which also covers non-positive
sequences, is false: `push` returns a chunk with `sequence ≤ 0`
immediately and touches nothing, so the stall flush never runs (see the
counterexample). -/
theorem c8_stall_break (c2 c3 : TWChunk) (hs2 : c2.sequence = 2)
    (hs3 : c3.sequence = 3) (c : TWChunk) (hc : 1 ≤ c.sequence) (t1 : Int)
    (ht : 500 ≤ t1) :
    (push (mkSequenceBuffer defaultConfig 0) c2 0).1 = [] ∧
    (push (push (mkSequenceBuffer defaultConfig 0) c2 0).2 c3 0).1 = [] ∧
    ∃ rest,
      (push (push (push (mkSequenceBuffer defaultConfig 0) c2 0).2 c3 0).2
          c t1).1 = c2 :: c3 :: rest := by
  have h2 := c8_push2 c2 hs2
  have h3 := c8_push3 c2 c3 hs3
  refine ⟨by rw [h2], by rw [h2]; dsimp only; rw [h3], ?_⟩
  rw [h2]
  dsimp only
  rw [h3]
  dsimp only
  rw [push]
  rw [if_neg (by omega)]
  have hclean : ∃ L : Int, cleanupIfNeeded
      (SequenceBuffer.mk 1 [(2, c2), (3, c3)] [(2, 0), (3, 0)] 0 defaultConfig) t1 =
      SequenceBuffer.mk 1 [(2, c2), (3, c3)] [(2, 0), (3, 0)] L defaultConfig := by
    rw [cleanupIfNeeded]
    rw [if_neg (by norm_num [defaultConfig])]
    rcases lt_or_le (t1 - 0) 5000 with h5 | h5
    · refine ⟨0, ?_⟩
      rw [if_pos (by dsimp only [defaultConfig]; omega)]
    · refine ⟨t1, ?_⟩
      rw [if_neg (by dsimp only [defaultConfig]; omega)]
      dsimp only [defaultConfig]
      norm_num [mapHas, mapGet?]
  obtain ⟨L, hcl⟩ := hclean
  rw [hcl]
  dsimp only
  rw [c8_flush c2 c3 L t1 ht]
  dsimp only
  split
  · exact ⟨_, rfl⟩
  · split
    · exact ⟨_, rfl⟩
    · split
      · exact ⟨_, rfl⟩
      · exact ⟨_, rfl⟩

/-- Witness for C8: chunks 2 and 3 at time 0, then a chunk with sequence 1
pushed at time 500 releases 2 and 3. -/
theorem c8_stall_break_witness :
    (push (mkSequenceBuffer defaultConfig 0) (TWChunk.mk 2 [] 0) 0).1 = [] ∧
    (push (push (mkSequenceBuffer defaultConfig 0) (TWChunk.mk 2 [] 0) 0).2
        (TWChunk.mk 3 [] 0) 0).1 = [] ∧
    ∃ rest,
      (push (push (push (mkSequenceBuffer defaultConfig 0)
          (TWChunk.mk 2 [] 0) 0).2 (TWChunk.mk 3 [] 0) 0).2
          (TWChunk.mk 1 [] 0) 500).1 =
        TWChunk.mk 2 [] 0 :: TWChunk.mk 3 [] 0 :: rest :=
  c8_stall_break (TWChunk.mk 2 [] 0) (TWChunk.mk 3 [] 0) rfl rfl
    (TWChunk.mk 1 [] 0) (by decide) 500 (by decide)

/-- C10 (amended): the expected sequence of a `SequenceBuffer` never moves
backwards across a push. For a stale chunk (`1 ≤ sequence < expected`) the
push equals the housekeeping passes (periodic cleanup and stall flush) —
which do not depend on the pushed chunk — followed by releasing the stale
chunk itself: the stale chunk neither changes the state further nor causes
any pending chunk to be discarded. The original claim's unqualified
"expected keeps its value" is false: the stall flush that runs inside the
same push can raise the expected sequence (see the counterexample). -/
theorem c10_expected_monotone_stale_passthrough :
    (∀ (sb : SequenceBuffer) (c : TWChunk) (now : Int),
      sb.expectedSequence ≤ (push sb c now).2.expectedSequence) ∧
    (∀ (sb : SequenceBuffer) (c : TWChunk) (now : Int),
      1 ≤ c.sequence → c.sequence < sb.expectedSequence →
      push sb c now =
        ((flushIfStalled (cleanupIfNeeded sb now) now).1 ++ [c],
         (flushIfStalled (cleanupIfNeeded sb now) now).2)) := by
  constructor
  · intro sb c now
    rw [push]
    split
    · exact le_refl _
    · have hb := cleanup_expected_eq sb now
      have ha := flush_expected_ge (cleanupIfNeeded sb now) now
      dsimp only
      split
      · dsimp only
        have hdr := drainLoop_final_ge
          (flushIfStalled (cleanupIfNeeded sb now) now).2.pending
          (flushIfStalled (cleanupIfNeeded sb now) now).2.pendingInsertedAt
          ((flushIfStalled (cleanupIfNeeded sb now) now).2.expectedSequence + 1)
        omega
      · split
        · dsimp only
          omega
        · split
          · rename_i hfar
            dsimp only
            omega
          · dsimp only
            omega
  · intro sb c now h1 h2
    have hb := cleanup_expected_eq sb now
    have ha := flush_expected_ge (cleanupIfNeeded sb now) now
    have hce : c.sequence <
        (flushIfStalled (cleanupIfNeeded sb now) now).2.expectedSequence := by
      omega
    rw [push]
    rw [if_neg (by omega)]
    rw [if_neg (by omega)]
    rw [if_neg (by rintro ⟨⟨hlt, -⟩, -⟩; omega)]
    rw [if_neg (by omega)]

/-- Witness for C10: a buffer reset to expect sequence 5 receives a stale
chunk with sequence 2 at time 0. -/
theorem c10_expected_monotone_stale_passthrough_witness :
    (SequenceBuffer.reset (mkSequenceBuffer defaultConfig 0) 5 0).expectedSequence ≤
      (push (SequenceBuffer.reset (mkSequenceBuffer defaultConfig 0) 5 0)
        (TWChunk.mk 2 [] 0) 0).2.expectedSequence ∧
    push (SequenceBuffer.reset (mkSequenceBuffer defaultConfig 0) 5 0)
        (TWChunk.mk 2 [] 0) 0 =
      ((flushIfStalled (cleanupIfNeeded
          (SequenceBuffer.reset (mkSequenceBuffer defaultConfig 0) 5 0) 0) 0).1 ++
          [TWChunk.mk 2 [] 0],
       (flushIfStalled (cleanupIfNeeded
          (SequenceBuffer.reset (mkSequenceBuffer defaultConfig 0) 5 0) 0) 0).2) :=
  ⟨c10_expected_monotone_stale_passthrough.1
      (SequenceBuffer.reset (mkSequenceBuffer defaultConfig 0) 5 0)
      (TWChunk.mk 2 [] 0) 0,
   c10_expected_monotone_stale_passthrough.2
      (SequenceBuffer.reset (mkSequenceBuffer defaultConfig 0) 5 0)
      (TWChunk.mk 2 [] 0) 0 (by decide) (by decide)⟩

/-- Counterexample to the unamended C10: a buffer expecting 5 holds the
pending chunk 6 inserted at time 0; pushing the stale chunk 2 at time 500
triggers the stall flush, so the push releases 6 and moves the expected
sequence from 5 to 7 — it does not keep its value. -/
theorem c10_expected_monotone_stale_passthrough_cex :
    ((1 : Int) ≤ 2 ∧
      (2 : Int) <
        (push (SequenceBuffer.reset (mkSequenceBuffer defaultConfig 0) 5 0)
          (TWChunk.mk 6 [] 0) 0).2.expectedSequence) ∧
    (push (push (SequenceBuffer.reset (mkSequenceBuffer defaultConfig 0) 5 0)
        (TWChunk.mk 6 [] 0) 0).2
        (TWChunk.mk 2 [] 0) 500).2.expectedSequence ≠
      (push (SequenceBuffer.reset (mkSequenceBuffer defaultConfig 0) 5 0)
        (TWChunk.mk 6 [] 0) 0).2.expectedSequence := by
  have hstate : (push (SequenceBuffer.reset (mkSequenceBuffer defaultConfig 0) 5 0)
      (TWChunk.mk 6 [] 0) 0).2 =
      SequenceBuffer.mk 5 [(6, TWChunk.mk 6 [] 0)] [(6, 0)] 0 defaultConfig := by
    decide
  have hdr : drainLoop [(6, TWChunk.mk 6 [] 0)] [((6 : Int), (0 : Int))] 6 =
      ([TWChunk.mk 6 [] 0], [], [], 7) := by
    have h6 : mapGet? [(6, TWChunk.mk 6 [] 0)] (6 : Int) =
        some (TWChunk.mk 6 [] 0) := rfl
    rw [drainLoop_eq_some h6]
    have hd1 : mapDelete [(6, TWChunk.mk 6 [] 0)] (6 : Int) = [] := rfl
    have hd2 : mapDelete [((6 : Int), (0 : Int))] (6 : Int) = [] := rfl
    rw [hd1, hd2]
    have h7 : mapGet? ([] : List (Int × TWChunk)) ((6 : Int) + 1) = none := rfl
    rw [drainLoop_eq_none h7]
    norm_num
  have hfl : flushIfStalled
      (SequenceBuffer.mk 5 [(6, TWChunk.mk 6 [] 0)] [(6, 0)] 0 defaultConfig) 500 =
      ([TWChunk.mk 6 [] 0], SequenceBuffer.mk 7 [] [] 0 defaultConfig) := by
    rw [flushIfStalled]
    rw [if_neg (by simp)]
    have hmp : minPending
        (SequenceBuffer.mk 5 [(6, TWChunk.mk 6 [] 0)] [(6, 0)] 0 defaultConfig)
        500 = some (6, 0) := rfl
    rw [hmp]
    dsimp only
    rw [if_neg (by norm_num)]
    rw [if_neg (by dsimp only [defaultConfig]; norm_num)]
    rw [hdr]
  rw [hstate]
  have hcl : cleanupIfNeeded
      (SequenceBuffer.mk 5 [(6, TWChunk.mk 6 [] 0)] [(6, 0)] 0 defaultConfig) 500 =
      SequenceBuffer.mk 5 [(6, TWChunk.mk 6 [] 0)] [(6, 0)] 0 defaultConfig := rfl
  refine ⟨⟨by norm_num, by norm_num⟩, ?_⟩
  rw [push]
  rw [if_neg (by decide)]
  rw [hcl]
  dsimp only
  rw [hfl]
  dsimp only
  rw [if_neg (by decide)]
  rw [if_neg (by decide)]
  rw [if_neg (by decide)]
  dsimp only
  decide

/-- Counterexample to the unamended C8: after chunks 2 and 3 are pushed at
time 0, pushing a chunk with the non-positive sequence 0 at time 500 (the
stall deadline) releases only that chunk and leaves the buffer untouched —
chunks 2 and 3 stay pending, so the stall flush never ran. -/
theorem c8_stall_break_cex :
    (push (push (push (mkSequenceBuffer defaultConfig 0)
        (TWChunk.mk 2 [] 0) 0).2 (TWChunk.mk 3 [] 0) 0).2
        (TWChunk.mk 0 [] 0) 500).1 = [TWChunk.mk 0 [] 0] ∧
    (push (push (push (mkSequenceBuffer defaultConfig 0)
        (TWChunk.mk 2 [] 0) 0).2 (TWChunk.mk 3 [] 0) 0).2
        (TWChunk.mk 0 [] 0) 500).2 =
      (push (push (mkSequenceBuffer defaultConfig 0)
        (TWChunk.mk 2 [] 0) 0).2 (TWChunk.mk 3 [] 0) 0).2 := by
  constructor
  · decide
  · decide

theorem reachable_minv {s : MState} (hr : Reachable s) : MInv s := by
  induction hr with
  | init =>
    exact ⟨fun _ => ⟨rfl, rfl, rfl⟩, fun h => by simp [initState] at h,
           fun h => by simp [initState] at h, fun h => by simp [initState] at h⟩
  | step hr hs ih =>
    obtain ⟨i0, i1, i2, i3⟩ := ih
    cases hs with
    | startOk h =>
      obtain ⟨e0, b0, r0⟩ := i0 h
      exact ⟨fun hc => by simp at hc, fun _ => ⟨e0, b0, rfl⟩,
             fun hc => by simp at hc, fun hc => by simp at hc⟩
    | startFail h =>
      obtain ⟨e0, b0, r0⟩ := i0 h
      exact ⟨fun hc => by simp at hc, fun hc => by simp at hc,
             fun hc => by simp at hc,
             fun _ => ⟨rfl, fun htr => by simp at htr, fun _ => Or.inl e0⟩⟩
    | fireCreated h =>
      obtain ⟨e1, b1, r1⟩ := i1 h
      refine ⟨fun hc => by simp at hc, fun hc => by simp at hc,
              fun _ => ⟨?_, b1, r1⟩, fun hc => by simp at hc⟩
      dsimp only
      rw [e1]
      rfl
    | returnOk h =>
      obtain ⟨e2, b2, r2⟩ := i2 h
      refine ⟨fun hc => by simp at hc, fun hc => by simp at hc,
              fun hc => by simp at hc,
              fun _ => ⟨rfl, fun _ => e2, fun hreg => ?_⟩⟩
      rw [r2] at hreg
      simp at hreg
    | childExit h =>
      exact ⟨fun hc => i0 hc, fun hc => i1 hc, fun hc => i2 hc, fun hc => i3 hc⟩
    | reapFire h hb hreg =>
      refine ⟨fun hc => absurd hb (by simp [(i0 hc).2.1]),
              fun hc => absurd hb (by simp [(i1 hc).2.1]),
              fun hc => absurd hb (by simp [(i2 hc).2.1]),
              fun hc => ?_⟩
      obtain ⟨hbar, hn1, hn0⟩ := i3 hc
      refine ⟨hbar, fun htr => by simp at htr, fun _ => ?_⟩
      right
      right
      dsimp only
      rw [hn1 hreg]
      rfl
    | reapDetachOnly h hb hreg =>
      refine ⟨fun hc => absurd hb (by simp [(i0 hc).2.1]),
              fun hc => absurd hb (by simp [(i1 hc).2.1]),
              fun hc => absurd hb (by simp [(i2 hc).2.1]),
              fun hc => ?_⟩
      obtain ⟨hbar, hn1, hn0⟩ := i3 hc
      exact ⟨hbar, fun htr => by simp at htr,
             fun _ => Or.inr (Or.inl (hn1 hreg))⟩
    | reapNoop h hb hreg =>
      refine ⟨fun hc => absurd hb (by simp [(i0 hc).2.1]),
              fun hc => absurd hb (by simp [(i1 hc).2.1]),
              fun hc => absurd hb (by simp [(i2 hc).2.1]),
              fun hc => ?_⟩
      obtain ⟨hbar, hn1, hn0⟩ := i3 hc
      exact ⟨hbar, fun htr => hn1 htr, fun hf => hn0 hf⟩

/-- C7: in every reachable interleaving of `CreateSession` and the exit
reaper for one session — including the child exiting before `CreateSession`
returns — a `closed` event observed at any position of the event list is
preceded by a `created` event: the reaper blocks on the `createdDone`
barrier, which closes only when `CreateSession` returns, after the created
handler call completed. -/
theorem c7_created_before_closed {s : MState} (hr : Reachable s) :
    ∀ i : Nat, s.events.get? i = some Evt.closed →
      ∃ j : Nat, j < i ∧ s.events.get? j = some Evt.created := by
  have hinv := reachable_minv hr
  have hgood : s.events = [] ∨ s.events = [Evt.created] ∨
      s.events = [Evt.created, Evt.closed] := by
    obtain ⟨i0, i1, i2, i3⟩ := hinv
    cases hc : s.cpc with
    | c0 => exact Or.inl (i0 hc).1
    | c1 => exact Or.inl (i1 hc).1
    | c2 => exact Or.inr (Or.inl (i2 hc).1)
    | cDone =>
      obtain ⟨hbar, hn1, hn0⟩ := i3 hc
      cases hreg : s.registered with
      | true => exact Or.inr (Or.inl (hn1 hreg))
      | false => exact hn0 hreg
  intro i hi
  rcases hgood with he | he | he
  · rw [he] at hi
    simp at hi
  · rw [he] at hi
    cases i with
    | zero => simp at hi
    | succ n => simp at hi
  · rw [he] at hi
    rw [he]
    cases i with
    | zero => simp at hi
    | succ n =>
      cases n with
      | zero => exact ⟨0, by omega, rfl⟩
      | succ m => simp at hi

/-- Witness for C7: the trace where the child exits right after
`CreateSession` returns — register, start, fire created, return (closing
the barrier), child exit, reap — yields events `[created, closed]`, and
the `closed` at index 1 is preceded by the `created` at index 0. -/
theorem c7_created_before_closed_witness :
    Reachable (MState.mk [Evt.created, Evt.closed] true false CPc.cDone
      RPc.rDone) ∧
    (MState.mk [Evt.created, Evt.closed] true false CPc.cDone
      RPc.rDone).events.get? 1 = some Evt.closed ∧
    ∃ j : Nat, j < 1 ∧
      (MState.mk [Evt.created, Evt.closed] true false CPc.cDone
        RPc.rDone).events.get? j = some Evt.created := by
  have h0 : Reachable initState := Reachable.init
  have h1 : Reachable (MState.mk [] false true CPc.c1 RPc.r0) :=
    h0.step (Step.startOk _ rfl)
  have h2 : Reachable (MState.mk [Evt.created] false true CPc.c2 RPc.r0) :=
    h1.step (Step.fireCreated _ rfl)
  have h3 : Reachable (MState.mk [Evt.created] true true CPc.cDone RPc.r0) :=
    h2.step (Step.returnOk _ rfl)
  have h4 : Reachable (MState.mk [Evt.created] true true CPc.cDone RPc.r1) :=
    h3.step (Step.childExit _ rfl)
  have h5 : Reachable (MState.mk [Evt.created, Evt.closed] true false
      CPc.cDone RPc.rDone) :=
    h4.step (Step.reapFire _ rfl rfl rfl)
  exact ⟨h5, rfl, c7_created_before_closed h5 1 rfl⟩

/-- Counterexample to the unamended C5: with `n = 34` sequences, pushing
sequence 34 first exceeds the default `maxGap` of 32 over the expected
sequence 1, so the buffer jumps to expecting 35 and every later chunk is
passed straight through; the releases come out as 34, 1, 2, …, 33, not in
sequence order. -/
theorem c5_reorder_buffer_completeness_cex :
    ((34 : Int) :: (List.range 33).map (fun (i : Nat) => (i : Int) + 1)).Perm
        (seqList 34) ∧
    ((pushAll (SequenceBuffer.reset (mkSequenceBuffer defaultConfig 0) 1 0)
        (((34 : Int) :: (List.range 33).map (fun (i : Nat) => (i : Int) + 1)).map
          (fun s => TWChunk.mk s [] 0)) 0).1).map (fun c => c.sequence) ≠
      seqList 34 := by
  constructor
  · decide
  · decide

theorem oscGo_no_esc (fuel : Nat) :
    ∀ (l : List Nat), 27 ∉ l → oscGo fuel l = l := by
  induction fuel with
  | zero =>
    intro l h
    rfl
  | succ fuel ih =>
    intro l h
    cases l with
    | nil => rfl
    | cons b rest =>
      have hb : ¬(b = 27) := by
        intro hc
        subst hc
        exact h (List.mem_cons_self _ _)
      have ht : 27 ∉ rest := fun hm => h (List.mem_cons_of_mem b hm)
      simp only [oscGo]
      rw [if_neg (fun hcon => hb hcon.1)]
      rw [ih rest ht]

theorem csiDAGo_no_esc (fuel : Nat) :
    ∀ (l : List Nat), 27 ∉ l → csiDAGo fuel l = l := by
  induction fuel with
  | zero =>
    intro l h
    rfl
  | succ fuel ih =>
    intro l h
    cases l with
    | nil => rfl
    | cons b rest =>
      have hb : ¬(b = 27) := by
        intro hc
        subst hc
        exact h (List.mem_cons_self _ _)
      have ht : 27 ∉ rest := fun hm => h (List.mem_cons_of_mem b hm)
      simp only [csiDAGo]
      rw [if_neg (fun hcon => hb hcon.1)]
      rw [ih rest ht]

theorem cprGo_no_esc (fuel : Nat) :
    ∀ (l : List Nat), 27 ∉ l → cprGo fuel l = l := by
  induction fuel with
  | zero =>
    intro l h
    rfl
  | succ fuel ih =>
    intro l h
    cases l with
    | nil => rfl
    | cons b rest =>
      have hb : ¬(b = 27) := by
        intro hc
        subst hc
        exact h (List.mem_cons_self _ _)
      have ht : 27 ∉ rest := fun hm => h (List.mem_cons_of_mem b hm)
      simp only [cprGo]
      rw [if_neg (fun hcon => hb hcon.1)]
      rw [ih rest ht]

theorem queryGo_no_esc (fuel : Nat) :
    ∀ (l : List Nat), 27 ∉ l → queryGo fuel l = l := by
  induction fuel with
  | zero =>
    intro l h
    rfl
  | succ fuel ih =>
    intro l h
    cases l with
    | nil => rfl
    | cons b rest =>
      have hb : ¬(b = 27) := by
        intro hc
        subst hc
        exact h (List.mem_cons_self _ _)
      have ht : 27 ∉ rest := fun hm => h (List.mem_cons_of_mem b hm)
      simp only [queryGo]
      rw [if_neg (fun hcon => hb hcon.1)]
      rw [if_neg (fun hcon => hb hcon.1)]
      rw [ih rest ht]

theorem filterChunk?_no_esc (c : TerminalDataChunk) (h : 27 ∉ c.data) :
    filterChunk? c = some c := by
  rw [filterChunk?]
  rcases he : decide (c.data = []) with _ | _
  · have hne := of_decide_eq_false he
    rw [if_neg hne]
    dsimp only
    rw [show filterOSCColorSequences c.data = c.data from oscGo_no_esc _ _ h]
    rw [if_neg hne]
    rw [show filterCSIDeviceAttributeSequences c.data = c.data from
      csiDAGo_no_esc _ _ h]
    rw [if_neg hne]
    rw [show filterCSICursorPositionReportSequences c.data = c.data from
      cprGo_no_esc _ _ h]
    rw [if_neg hne]
    rw [show filterTerminalQuerySequences c.data = c.data from
      queryGo_no_esc _ _ h]
    rw [if_neg hne]
  · rw [if_pos (of_decide_eq_true he)]

theorem filterMap_no_esc (l : List TerminalDataChunk)
    (hl : ∀ c ∈ l, 27 ∉ c.data) : l.filterMap filterChunk? = l := by
  induction l with
  | nil => rfl
  | cons a t ih =>
    rw [List.filterMap_cons]
    rw [filterChunk?_no_esc a (hl a (List.mem_cons_self _ _))]
    rw [ih (fun c hc => hl c (List.mem_cons_of_mem a hc))]

theorem Filter_no_esc (xs : List TerminalDataChunk)
    (h : ∀ c ∈ xs, 27 ∉ c.data) : DefaultHistoryFilter.Filter xs = xs := by
  rw [DefaultHistoryFilter.Filter]
  split
  · rfl
  · exact filterMap_no_esc xs h

/-- C4 (amended): `DefaultHistoryFilter.Filter` is idempotent on every
chunk list whose once-filtered result contains no ESC byte (0x1b) — in
particular whenever one pass removed every escape sequence, a second pass
changes nothing. Unrestricted idempotence is false: a filter pass can
splice previously separated bytes into a *new* escape sequence that the
next pass removes (see the counterexample). -/
theorem c4_history_filter_idempotent (xs : List TerminalDataChunk)
    (h : ∀ c ∈ DefaultHistoryFilter.Filter xs, 27 ∉ c.data) :
    DefaultHistoryFilter.Filter (DefaultHistoryFilter.Filter xs) =
      DefaultHistoryFilter.Filter xs :=
  Filter_no_esc _ h

/-- Witness for C4: a chunk carrying an OSC 10 colour response and a device
attribute response around plain text filters to `helloworld`, which is
ESC-free, so a second pass keeps it unchanged. -/
theorem c4_history_filter_idempotent_witness :
    (∀ c ∈ DefaultHistoryFilter.Filter
        [TerminalDataChunk.mk 1
          [104, 101, 108, 108, 111, 27, 93, 49, 48, 59, 114, 103, 98, 58, 49,
           47, 50, 47, 51, 7, 119, 111, 114, 108, 100, 27, 91, 63, 49, 59, 50,
           99] 1 0], 27 ∉ c.data) ∧
    DefaultHistoryFilter.Filter (DefaultHistoryFilter.Filter
        [TerminalDataChunk.mk 1
          [104, 101, 108, 108, 111, 27, 93, 49, 48, 59, 114, 103, 98, 58, 49,
           47, 50, 47, 51, 7, 119, 111, 114, 108, 100, 27, 91, 63, 49, 59, 50,
           99] 1 0]) =
      DefaultHistoryFilter.Filter
        [TerminalDataChunk.mk 1
          [104, 101, 108, 108, 111, 27, 93, 49, 48, 59, 114, 103, 98, 58, 49,
           47, 50, 47, 51, 7, 119, 111, 114, 108, 100, 27, 91, 63, 49, 59, 50,
           99] 1 0] :=
  ⟨by decide,
   c4_history_filter_idempotent
     [TerminalDataChunk.mk 1
       [104, 101, 108, 108, 111, 27, 93, 49, 48, 59, 114, 103, 98, 58, 49,
        47, 50, 47, 51, 7, 119, 111, 114, 108, 100, 27, 91, 63, 49, 59, 50,
        99] 1 0] (by decide)⟩

/-- Counterexample to the unamended C4: the chunk bytes are
ESC `]` `1` `0` ESC `[` `c` `;` `x` BEL. The first pass removes only the
embedded device-attributes query ESC `[` `c` (the OSC colour scanner stops
at the inner ESC), leaving ESC `]` `1` `0` `;` `x` BEL — which now parses
as a complete OSC 10 colour response, so the second pass deletes it all
and drops the chunk: filtering twice loses a chunk that filtering once
kept. -/
theorem c4_history_filter_idempotent_cex :
    DefaultHistoryFilter.Filter (DefaultHistoryFilter.Filter
        [TerminalDataChunk.mk 1 [27, 93, 49, 48, 27, 91, 99, 59, 120, 7]
          0 10]) ≠
      DefaultHistoryFilter.Filter
        [TerminalDataChunk.mk 1 [27, 93, 49, 48, 27, 91, 99, 59, 120, 7]
          0 10] := by
  decide

end Floeterm

